import Mathlib

set_option maxRecDepth 20000

/-!
Shallow embedding of the freddy JSON library (src/json.hpp).

The C++ source is a header-only library: a tagged `json::value` over
null/bool/number/string/array/object, `escape`/`unescape` text transforms,
a recursive-descent parser templated over an iterator
(`detail::parse`, `detail::parse_array`, `detail::parse_object`,
`detail::parse_string`, `detail::parse_number`), ostream-based rendering
(`value::json`, `operator<<` for `json::array` and `json::object`), and two
entry points `json::parse(std::string const&)` and
`json::parse(std::basic_istream<T>&)`.

Modelling conventions:
  - characters are Lean `Char`; `std::string` payloads are `List Char`;
  - `double` is modelled as `Rat` (exact rationals; all numeric literals the
    claims touch are exactly representable in IEEE double, where the two
    agree); the stream extraction `io >> d` and the default-precision-6
    `ostream << double` rendering are modelled by `strtodQ` and `formatQ`;
  - dereferencing the string end iterator reads the `std::string` NUL
    terminator, modelled as `Char.ofNat 0`;
  - the iterator template parameter becomes the `IterOps` record, with one
    instance for `std::string::const_iterator` pairs and one for the
    `detail::iterator` pull-stream wrapper;
  - C++ loops/recursion become structural recursion on a fuel counter; the
    entry points pass `3 * length + 4` fuel, which is never exhausted
    (exhaustion is the distinguished `Err.outOfFuel`, produced by no run the
    theorems below touch);
  - `throw json::exception(m)` becomes `Except.error (Err.msg m)`;
  - `std::map<string, value>` becomes a key-sorted association list, with
    `operator[]`-assignment modelled by the ordered overwrite `mapInsert`.
-/

/-- The NUL character: what dereferencing the `std::string` terminator yields. -/
def nulC : Char := Char.ofNat 0

/-- The double-quote character. -/
def quoteC : Char := Char.ofNat 34

/-- The backslash character. -/
def backslashC : Char := Char.ofNat 92

/-- The opening curly brace character. -/
def lbraceC : Char := Char.ofNat 123

/-- The closing curly brace character. -/
def rbraceC : Char := Char.ofNat 125

/-- `(char)std::char_traits<char>::eof()`: what the stream iterator's peek
    yields at end of stream. -/
def eofC : Char := Char.ofNat 255

/-- Model of `detail::is_whitespace` (src/json.hpp:644). -/
def is_whitespace (c : Char) : Bool :=
  c = ' ' || c = Char.ofNat 13 || c = Char.ofNat 10 || c = Char.ofNat 9

/-- The character class `parse_number` peeks for (src/json.hpp:683):
    digit, minus, dot, exponent letters, plus. -/
def numClass (c : Char) : Bool :=
  c.isDigit || c = '-' || c = '.' || c = 'e' || c = 'E' || c = '+'

/-- Model of `json::escape` (src/json.hpp:92): prefix each double quote and
    each backslash with a backslash; copy everything else. -/
def escape : List Char → List Char
  | [] => []
  | c :: rest =>
    (if c = quoteC || c = backslashC then [backslashC, c] else [c]) ++ escape rest

/-- Model of `json::unescape` (src/json.hpp:110).  The C++ walks the
    NUL-terminated `value.data()` buffer: it stops at the first NUL; on a
    backslash it advances and emits the following character verbatim.  A
    trailing lone backslash makes the C++ emit the NUL terminator itself
    (and then walk past the buffer, which is undefined behaviour); that case
    is modelled as emitting NUL and stopping, and is unreachable for
    escaped inputs. -/
def unescape : List Char → List Char
  | [] => []
  | c :: rest =>
    if c = nulC then []
    else if c = backslashC then
      match rest with
      | [] => [nulC]
      | d :: rest' => d :: unescape rest'
    else c :: unescape rest

/-! ### Exact-rational arithmetic helpers

Core `Rat.add`/`Rat.mul`/`Rat.inv` are `@[extern]` and do not reduce in the
kernel, so the model uses its own normalising operations built on `mkRat`
(which does reduce).  These are only used inside `strtodQ` and `formatQ`. -/

/-- Normalising rational addition. -/
def qAdd (a b : Rat) : Rat := mkRat (a.num * (b.den : Int) + b.num * (a.den : Int)) (a.den * b.den)

/-- Normalising rational subtraction. -/
def qSub (a b : Rat) : Rat := mkRat (a.num * (b.den : Int) - b.num * (a.den : Int)) (a.den * b.den)

/-- Normalising rational multiplication. -/
def qMul (a b : Rat) : Rat := mkRat (a.num * b.num) (a.den * b.den)

/-- Normalising rational inverse (0 maps to 0). -/
def qInv (a : Rat) : Rat :=
  if a.num < 0 then mkRat (-(a.den : Int)) a.num.natAbs else mkRat (a.den : Int) a.num.natAbs

/-- Rational strictly-less-than, via `Rat.blt`. -/
def qLt (a b : Rat) : Bool := Rat.blt a b

/-- Rational less-or-equal, via `Rat.blt`. -/
def qLe (a b : Rat) : Bool := !Rat.blt b a

/-- Rational power with natural exponent. -/
def qPowN (a : Rat) (n : Nat) : Rat := mkRat (a.num ^ n) (a.den ^ n)

/-- Rational power with integer exponent. -/
def qZpow (a : Rat) : Int → Rat
  | .ofNat n => qPowN a n
  | .negSucc n => qInv (qPowN a (n + 1))

/-- Decimal digit character for `d % 10`. -/
def digitChar (d : Nat) : Char := Char.ofNat (48 + d % 10)

/-- Decimal digit characters of `n`, most significant first (fuel-based so the
    kernel can evaluate it). -/
def natToCharsAux : Nat → Nat → List Char
  | 0, _ => []
  | f + 1, n => if n < 10 then [digitChar n] else natToCharsAux f (n / 10) ++ [digitChar (n % 10)]

/-- Decimal digit characters of `n`, most significant first. -/
def natToChars (n : Nat) : List Char := natToCharsAux (n + 1) n

/-- Number of decimal digits of `n` (1 for 0). -/
def natDigitCount (n : Nat) : Nat := (natToChars n).length

/-- Drop trailing `'0'` characters. -/
def stripZeros (l : List Char) : List Char :=
  (l.reverse.dropWhile (fun c => c = '0')).reverse

/-- Round to the nearest integer, ties to even — the correct rounding the
    C library's floating-point formatting applies to the exact value. -/
def roundHalfEven (q : Rat) : Int :=
  let f := q.floor
  let r := qSub q (mkRat f 1)
  if qLt r (mkRat 1 2) then f
  else if qLt (mkRat 1 2) r then f + 1
  else if f % 2 = 0 then f else f + 1

/-- Decimal exponent of a positive rational: the `X` with `10^X ≤ q < 10^(X+1)`. -/
def decExp (q : Rat) : Int :=
  if qLe (mkRat 1 1) q then (natDigitCount q.floor.toNat : Int) - 1
  else -((natDigitCount ((qInv q).ceil.toNat - 1) : Int))

/-- Fixed-notation layout of the `%f`-style branch: the six rounded digits
    `ds` with the decimal point placed after position `X`, trailing zeros
    stripped. -/
def fmtFixed (ds : List Char) (X : Int) : List Char :=
  if 0 ≤ X then
    let k := X.toNat + 1
    let frac := stripZeros (ds.drop k)
    if frac = [] then ds.take k else ds.take k ++ '.' :: frac
  else
    '0' :: '.' :: (List.replicate (-(X + 1)).toNat '0' ++ stripZeros ds)

/-- Scientific-notation layout of the `%e`-style branch: leading digit,
    stripped fraction, `e`, sign, at-least-two-digit exponent. -/
def fmtSci (ds : List Char) (X : Int) : List Char :=
  let frac := stripZeros (ds.drop 1)
  (ds.take 1 ++ (if frac = [] then [] else '.' :: frac))
    ++ 'e' :: (if 0 ≤ X then '+' else '-') ::
      (if X.natAbs < 10 then ['0', digitChar X.natAbs] else natToChars X.natAbs)

/-- `%g`-style rendering of a positive rational at precision 6: the digit
    selection and fixed/scientific switch that `ostream << double` performs
    with default flags. -/
def fmtPos (q : Rat) : List Char :=
  let X0 := decExp q
  let D0 := (roundHalfEven (qMul q (qZpow (mkRat 10 1) (5 - X0)))).toNat
  let D := if D0 = 1000000 then 100000 else D0
  let X := if D0 = 1000000 then X0 + 1 else X0
  let ds := natToChars D
  if -4 ≤ X ∧ X < 6 then fmtFixed ds X else fmtSci ds X

/-- Model of `ostream << double` with default flags (precision 6), as
    performed by `number_wrapper::json` (src/json.hpp:280). -/
def formatQ (q : Rat) : List Char :=
  if q.num = 0 then ['0'] else if q.num < 0 then '-' :: fmtPos (Rat.neg q) else fmtPos q

/-- Numeric value of a digit run. -/
def digitsToNat (l : List Char) : Nat := l.foldl (fun a c => a * 10 + (c.toNat - 48)) 0

/-- Exponent part of the stream number extraction: `e`/`E` was consumed; a
    dangling exponent (no digits) makes the whole extraction fail, storing 0. -/
def expPart (sgn : Int) (mant : Rat) (r : List Char) : Rat :=
  let esgn : Int := match r with | '-' :: _ => -1 | _ => 1
  let r1 := match r with | '-' :: t => t | '+' :: t => t | _ => r
  let ed := r1.takeWhile Char.isDigit
  if ed = [] then 0
  else qMul (mkRat sgn 1) (qMul mant (qZpow (mkRat 10 1) (esgn * (digitsToNat ed : Int))))

/-- Model of the `io >> d` stream extraction (num_get / strtod semantics) that
    `parse_number` applies to its collected text (src/json.hpp:689): longest
    valid numeric prefix; a failed extraction stores 0 (C++11).  Exact
    rational semantics stand in for the IEEE double conversion. -/
def strtodQ (l : List Char) : Rat :=
  let sgn : Int := match l with | '-' :: _ => -1 | _ => 1
  let l1 := match l with | '-' :: t => t | '+' :: t => t | _ => l
  let ip := l1.takeWhile Char.isDigit
  let l2 := l1.dropWhile Char.isDigit
  let fp := match l2 with | '.' :: r => r.takeWhile Char.isDigit | _ => []
  let l3 := match l2 with | '.' :: r => r.dropWhile Char.isDigit | _ => l2
  if ip = [] ∧ fp = [] then 0
  else
    let mant := qAdd (mkRat (digitsToNat ip : Int) 1) (mkRat (digitsToNat fp : Int) (10 ^ fp.length))
    match l3 with
    | 'e' :: r => expPart sgn mant r
    | 'E' :: r => expPart sgn mant r
    | _ => qMul (mkRat sgn 1) mant

/-! ### The value model -/

/-- Model of the `json::ValueType` enumeration (src/json.hpp:386). -/
inductive ValueType where
  | JSON_ARRAY
  | JSON_BOOL
  | JSON_NULL
  | JSON_NUMBER
  | JSON_OBJECT
  | JSON_STRING
deriving DecidableEq

/-- Model of `json::value`: the closed tagged variant realised in C++ as
    `detail::value_t` with one wrapper subclass per variant
    (src/json.hpp:246-375).  An object payload is the key-sorted association
    list a `std::map<string, value>` holds. -/
inductive Value where
  | vnull
  | vbool (b : Bool)
  | vnum (q : Rat)
  | vstr (s : List Char)
  | varr (elems : List Value)
  | vobj (entries : List (List Char × Value))

/-- The `_type` tag stored by each `json::value` constructor. -/
def valueTag : Value → ValueType
  | .vnull => .JSON_NULL
  | .vbool _ => .JSON_BOOL
  | .vnum _ => .JSON_NUMBER
  | .vstr _ => .JSON_STRING
  | .varr _ => .JSON_ARRAY
  | .vobj _ => .JSON_OBJECT

/-- Errors: `Err.msg` models `throw json::exception(...)`; `Err.outOfFuel` is
    the modelling artifact for fuel exhaustion and is produced by no run the
    theorems below consider. -/
inductive Err where
  | msg (s : String)
  | outOfFuel
deriving DecidableEq

/-- The "invalid cast" error thrown by the `detail::value_t` base-class
    accessors (src/json.hpp:252-255). -/
def invalidCast : Err := Err.msg ("invalid cast")

/-- `value::is_array`: dispatches to the wrapper; only `array_wrapper`
    overrides it to true. -/
def is_array : Value → Bool
  | .varr _ => true
  | _ => false

/-- `value::is_bool`. -/
def is_bool : Value → Bool
  | .vbool _ => true
  | _ => false

/-- `value::is_null`. -/
def is_null : Value → Bool
  | .vnull => true
  | _ => false

/-- `value::is_number`. -/
def is_number : Value → Bool
  | .vnum _ => true
  | _ => false

/-- `value::is_object`. -/
def is_object : Value → Bool
  | .vobj _ => true
  | _ => false

/-- `value::is_string`. -/
def is_string : Value → Bool
  | .vstr _ => true
  | _ => false

/-- `value::get_array`: the payload from `array_wrapper`, or the base class
    `throw exception("invalid cast")`. -/
def get_array : Value → Except Err (List Value)
  | .varr xs => .ok xs
  | _ => .error invalidCast

/-- `value::get_bool`. -/
def get_bool : Value → Except Err Bool
  | .vbool b => .ok b
  | _ => .error invalidCast

/-- `value::get_number`. -/
def get_number : Value → Except Err Rat
  | .vnum q => .ok q
  | _ => .error invalidCast

/-- `value::get_object`. -/
def get_object : Value → Except Err (List (List Char × Value))
  | .vobj m => .ok m
  | _ => .error invalidCast

/-- `value::get_string`. -/
def get_string : Value → Except Err (List Char)
  | .vstr s => .ok s
  | _ => .error invalidCast

/-- Lexicographic string comparison: the `std::map<string, value>` key order
    (`std::string::operator<`). -/
def keyLt : List Char → List Char → Bool
  | [], [] => false
  | [], _ :: _ => true
  | _ :: _, [] => false
  | a :: as, b :: bs => if a < b then true else if a = b then keyLt as bs else false

/-- Model of `rv[key] = v` on a `std::map<string, value>`: ordered insert,
    overwriting the entry for an existing equal key. -/
def mapInsert : List (List Char × Value) → List Char → Value → List (List Char × Value)
  | [], k, v => [(k, v)]
  | (k', v') :: rest, k, v =>
    if keyLt k k' then (k, v) :: (k', v') :: rest
    else if keyLt k' k then (k', v') :: mapInsert rest k v
    else (k, v) :: rest

/-- The `std::map` invariant on the association-list model: keys strictly
    ascending in `keyLt`. -/
def sortedKeysB : List (List Char × Value) → Bool
  | [] => true
  | [_] => true
  | (k, _) :: (k', v') :: rest => keyLt k k' && sortedKeysB ((k', v') :: rest)

/-! ### Rendering (`value::json`, `operator<<` on arrays and objects) -/

mutual

/-- Model of `value::json()` (src/json.hpp:536): dispatches to the wrapper's
    `json()`: `null_wrapper` gives "null", `bool_wrapper` indexes
    `bool_branch`, `number_wrapper` streams the double, `string_wrapper`
    quotes the escaped payload, and the array/object wrappers use the
    `operator<<` loops below. -/
def renderV : Value → List Char
  | .vnull => ['n', 'u', 'l', 'l']
  | .vbool b => if b then ['t', 'r', 'u', 'e'] else ['f', 'a', 'l', 's', 'e']
  | .vnum q => formatQ q
  | .vstr s => quoteC :: (escape s ++ [quoteC])
  | .varr xs => '[' :: (renderItems xs ++ [']'])
  | .vobj m => lbraceC :: (renderPairs m ++ [rbraceC])

/-- The `operator<<(ostream, array const&)` loop (src/json.hpp:604): each
    element's `json()`, with `comma_branch[++count < size]` — i.e. `", "`
    after every element but the last. -/
def renderItems : List Value → List Char
  | [] => []
  | [x] => renderV x
  | x :: y :: rest => renderV x ++ ',' :: ' ' :: renderItems (y :: rest)

/-- The `operator<<(ostream, object const&)` loop (src/json.hpp:622):
    `"key": value` with the key escaped, and `", "` after every entry but
    the last. -/
def renderPairs : List (List Char × Value) → List Char
  | [] => []
  | [(k, v)] => quoteC :: (escape k ++ quoteC :: ':' :: ' ' :: renderV v)
  | (k, v) :: p :: rest =>
    (quoteC :: (escape k ++ quoteC :: ':' :: ' ' :: renderV v)) ++ ',' :: ' ' :: renderPairs (p :: rest)

end

/-! ### The parser -/

/-- The iterator interface the parser templates are instantiated at:
    `deref` is `*cur`, `next` is `++cur`, `hasMore` is `cur != end`
    (for `detail::iterator` this ignores the right operand and reports
    `istream.good()`), and `peek1` is `*(cur + 1)`. -/
structure IterOps (σ : Type) where
  deref : σ → Char
  next : σ → σ
  hasMore : σ → Bool
  peek1 : σ → Char

/-- Model of `detail::parse_string` (src/json.hpp:693): a `for` loop with
    guard `cur != end`; an unescaped quote returns with `cur` on that quote;
    a backslash sets the escape flag and is not copied; end of input throws
    "bad string: " plus the partial result.  `esc` and `rv` model the C++
    locals. -/
def parse_string {σ : Type} (ops : IterOps σ) : Nat → σ → Bool → List Char → Except Err (List Char × σ)
  | 0, _, _, _ => .error .outOfFuel
  | fuel + 1, cur, esc, rv =>
    if ops.hasMore cur then
      let c := ops.deref cur
      if c = quoteC && !esc then .ok (rv, cur)
      else
        let escN := c = backslashC && !esc
        parse_string ops fuel (ops.next cur) escN (if escN then rv else rv ++ [c])
    else .error (.msg (("bad string: ") ++ String.mk rv))

/-- Model of `detail::parse_number` (src/json.hpp:677): a do-while that
    collects `*cur` into the stringstream, breaks when the peeked next
    character leaves the numeric class, and otherwise advances while
    `++cur != end`; finally the collected text is extracted into a double
    (`strtodQ`) and returned with `cur` still on the last collected
    character (or on end if the loop guard ever exits, which no reachable
    input causes). -/
def parse_number {σ : Type} (ops : IterOps σ) : Nat → σ → List Char → Except Err (Value × σ)
  | 0, _, _ => .error .outOfFuel
  | fuel + 1, cur, acc =>
    let accN := acc ++ [ops.deref cur]
    if numClass (ops.peek1 cur) then
      let curN := ops.next cur
      if ops.hasMore curN then parse_number ops fuel curN accN
      else .ok (.vnum (strtodQ accN), curN)
    else .ok (.vnum (strtodQ accN), cur)

mutual

/-- Model of `detail::parse` (src/json.hpp:732): dispatch on `*cur`.
    Sub-parsers are entered past the opening delimiter; literals are matched
    character by character; digits and minus enter the number production at
    the current position; whitespace advances and re-enters while
    `cur != end`; anything else throws "bad json".  On success `cur` rests
    on the last consumed character. -/
def parseVal {σ : Type} (ops : IterOps σ) : Nat → σ → Except Err (Value × σ)
  | 0, _ => .error .outOfFuel
  | fuel + 1, cur =>
    let c := ops.deref cur
    if c = quoteC then
      match parse_string ops fuel (ops.next cur) false [] with
      | .ok (s, r) => .ok (.vstr s, r)
      | .error e => .error e
    else if c = '[' then
      match parse_array ops fuel (ops.next cur) [] true false with
      | .ok (xs, r) => .ok (.varr xs, r)
      | .error e => .error e
    else if c = lbraceC then
      match parse_object ops fuel (ops.next cur) [] [] false false with
      | .ok (m, r) => .ok (.vobj m, r)
      | .error e => .error e
    else if c.isDigit || c = '-' then
      parse_number ops fuel cur []
    else if c = 'n' then
      let c1 := ops.next cur
      if ops.deref c1 = 'u' then
        let c2 := ops.next c1
        if ops.deref c2 = 'l' then
          let c3 := ops.next c2
          if ops.deref c3 = 'l' then .ok (.vnull, c3)
          else .error (.msg ("bad json: null"))
        else .error (.msg ("bad json: null"))
      else .error (.msg ("bad json: null"))
    else if c = 't' then
      let c1 := ops.next cur
      if ops.deref c1 = 'r' then
        let c2 := ops.next c1
        if ops.deref c2 = 'u' then
          let c3 := ops.next c2
          if ops.deref c3 = 'e' then .ok (.vbool true, c3)
          else .error (.msg (("bad json: ") ++ String.mk [ops.deref c3]))
        else .error (.msg (("bad json: ") ++ String.mk [ops.deref c2]))
      else .error (.msg (("bad json: ") ++ String.mk [ops.deref c1]))
    else if c = 'f' then
      let c1 := ops.next cur
      if ops.deref c1 = 'a' then
        let c2 := ops.next c1
        if ops.deref c2 = 'l' then
          let c3 := ops.next c2
          if ops.deref c3 = 's' then
            let c4 := ops.next c3
            if ops.deref c4 = 'e' then .ok (.vbool false, c4)
            else .error (.msg ("bad json: false"))
          else .error (.msg ("bad json: false"))
        else .error (.msg ("bad json: false"))
      else .error (.msg ("bad json: false"))
    else if is_whitespace c then
      let curN := ops.next cur
      if ops.hasMore curN then parseVal ops fuel curN
      else .error (.msg ("bad json"))
    else .error (.msg ("bad json"))

/-- Model of `detail::parse_array` (src/json.hpp:654): the do-while body with
    the C++ locals `rv`, `accept`, `has_elements` as arguments; each
    loop-bottom `++cur != end` failure throws "bad array". -/
def parse_array {σ : Type} (ops : IterOps σ) : Nat → σ → List Value → Bool → Bool → Except Err (List Value × σ)
  | 0, _, _, _, _ => .error .outOfFuel
  | fuel + 1, cur, rv, accept, hasElems =>
    let c := ops.deref cur
    if is_whitespace c then
      let curN := ops.next cur
      if ops.hasMore curN then parse_array ops fuel curN rv accept hasElems
      else .error (.msg ("bad array"))
    else if c = ']' && (hasElems != accept) then .ok (rv, cur)
    else if accept then
      match parseVal ops fuel cur with
      | .error e => .error e
      | .ok (v, r) =>
        let rN := ops.next r
        if ops.hasMore rN then parse_array ops fuel rN (rv ++ [v]) false true
        else .error (.msg ("bad array"))
    else if c = ',' then
      let curN := ops.next cur
      if ops.hasMore curN then parse_array ops fuel curN rv true hasElems
      else .error (.msg ("bad array"))
    else .error (.msg ("bad array"))

/-- Model of `detail::parse_object` (src/json.hpp:706): the do-while body with
    the C++ locals `rv`, `key`, `got_key`, `got_elements` as arguments; note
    the `'}' && !got_key` return is checked first, so a trailing comma
    before `}` is accepted. -/
def parse_object {σ : Type} (ops : IterOps σ) : Nat → σ → List (List Char × Value) → List Char → Bool → Bool → Except Err (List (List Char × Value) × σ)
  | 0, _, _, _, _, _ => .error .outOfFuel
  | fuel + 1, cur, rv, key, gotKey, gotElems =>
    let c := ops.deref cur
    if c = rbraceC && !gotKey then .ok (rv, cur)
    else if is_whitespace c then
      let curN := ops.next cur
      if ops.hasMore curN then parse_object ops fuel curN rv key gotKey gotElems
      else .error (.msg ("bad object"))
    else if c = quoteC then
      match parse_string ops fuel (ops.next cur) false [] with
      | .error e => .error e
      | .ok (k, r) =>
        let rN := ops.next r
        if ops.hasMore rN then parse_object ops fuel rN rv k true gotElems
        else .error (.msg ("bad object"))
    else if gotKey && c = ':' then
      match parseVal ops fuel (ops.next cur) with
      | .error e => .error e
      | .ok (v, r) =>
        let rN := ops.next r
        if ops.hasMore rN then parse_object ops fuel rN (mapInsert rv key v) key false true
        else .error (.msg ("bad object"))
    else if gotElems && !gotKey && c = ',' then
      let curN := ops.next cur
      if ops.hasMore curN then parse_object ops fuel curN rv key gotKey gotElems
      else .error (.msg ("bad object"))
    else .error (.msg ("bad object"))

end

/-- The trailing-garbage loop shared by both entry points
    (src/json.hpp:836, 857): `while (++i != e) if (!is_whitespace(*i)) throw`. -/
def runTrail {σ : Type} (ops : IterOps σ) : Nat → σ → Except Err Unit
  | 0, _ => .error .outOfFuel
  | fuel + 1, cur =>
    let curN := ops.next cur
    if ops.hasMore curN then
      if is_whitespace (ops.deref curN) then runTrail ops fuel curN
      else .error (.msg (("garbage at end of input: ") ++ String.mk [ops.deref curN]))
    else .ok ()

/-- String iterators: a position in the text is the suffix starting there;
    `*end` reads the NUL terminator. -/
def strOps : IterOps (List Char) :=
  ⟨fun l => l.headD nulC, List.tail, fun l => !l.isEmpty, fun l => l.tail.headD nulC⟩

/-- Model of `json::parse(std::string const&)` (src/json.hpp:831). -/
def parse (s : String) : Except Err Value :=
  let l := s.toList
  let fuel := 3 * l.length + 4
  match parseVal strOps fuel l with
  | .error e => .error e
  | .ok (v, cur) =>
    match runTrail strOps fuel cur with
    | .error e => .error e
    | .ok _ => .ok v

/-- The visible state of a `std::basic_istream<char>` driven only through
    `get`/`peek`/`good`: the characters not yet consumed, and whether the
    stream is still good. -/
structure StreamSt where
  curVal : Char
  rem : List Char
  good : Bool

/-- `detail::iterator::operator++` (src/json.hpp:774): `istream.get(cur_val)`.
    At end of stream the get fails, leaving `cur_val` unchanged and making
    `good()` false; a failed stream stays failed. -/
def streamNext (s : StreamSt) : StreamSt :=
  if s.good then
    match s.rem with
    | [] => ⟨s.curVal, [], false⟩
    | c :: r => ⟨c, r, true⟩
  else s

/-- `detail::iterator::operator+` (src/json.hpp:783): `istream.peek()`,
    converted to the character type; end of stream yields `(char)eof`.
    (The eofbit a real peek-at-end sets only matters through later reads,
    which the `streamNext` model fails anyway.) -/
def streamPeek (s : StreamSt) : Char :=
  if s.good then s.rem.headD eofC else eofC

/-- The `detail::iterator` instantiation of the parser templates:
    `operator*` returns the buffered `cur_val`; `operator!=` ignores its
    operand and reports `istream.good()` (src/json.hpp:788). -/
def streamOps : IterOps StreamSt :=
  ⟨fun s => s.curVal, streamNext, fun s => s.good, streamPeek⟩

/-- The `detail::iterator` constructor (src/json.hpp:772): buffers
    `is.get()`; on an empty stream the get returns eof and fails the
    stream. -/
def initStream (l : List Char) : StreamSt :=
  match l with
  | [] => ⟨eofC, [], false⟩
  | c :: r => ⟨c, r, true⟩

/-- Model of `json::parse(std::basic_istream<T>&)` (src/json.hpp:851), fed by
    a stream holding exactly the characters of `s`.  (The `e` iterator is a
    reference to `i` itself; `operator!=` consults only the stream state, so
    only one mutable iterator state is threaded.) -/
def parseStream (s : String) : Except Err Value :=
  let l := s.toList
  let fuel := 3 * l.length + 4
  match parseVal streamOps fuel (initStream l) with
  | .error e => .error e
  | .ok (v, cur) =>
    match runTrail streamOps fuel cur with
    | .error e => .error e
    | .ok _ => .ok v

/-! ### Shared backing storage (the copy-constructor aliasing model)

`value::value(value const&)` (src/json.hpp:516) copies the
`std::shared_ptr<detail::value_t> _value` and the `_type` tag, so a copy is a
second handle onto the same wrapper object; the wrapper owns its payload
(`array *_value` in `array_wrapper`, src/json.hpp:312), and `get_array()`
returns a reference into it.  The heap below makes the pointer structure
explicit: a handle is a tag plus a cell address, and payload reads/writes go
through the cell. -/

/-- A `json::value` handle as the heap model sees it: the `_type` tag plus
    the address of the shared wrapper cell. -/
structure HValue where
  tag : ValueType
  ref : Nat
deriving DecidableEq

/-- A wrapper cell: the payload owned by one `detail::value_t` subclass
    instance. -/
inductive HPayload where
  | arrP (xs : List HValue)
  | objP (m : List (List Char × HValue))
  | strP (s : List Char)
  | numP (q : Rat)
  | boolP (b : Bool)
  | nullP
deriving DecidableEq

/-- The copy constructor `value(value const&)`: copies the shared_ptr (same
    cell address) and the tag. -/
def copyValue (v : HValue) : HValue := ⟨v.tag, v.ref⟩

/-- Reading through `get_array()`: dispatch on the cell's wrapper kind; any
    non-array wrapper is the base-class `throw exception("invalid cast")`. -/
def heapGetArray (h : List HPayload) (v : HValue) : Except Err (List HValue) :=
  match h.get? v.ref with
  | some (.arrP xs) => .ok xs
  | _ => .error invalidCast

/-- A mutation through the reference `get_array()` returns: the cell's
    payload is replaced in place. -/
def heapSetArray (h : List HPayload) (v : HValue) (xs : List HValue) : List HPayload :=
  h.set v.ref (.arrP xs)

/-- Reading through `get_object()`. -/
def heapGetObject (h : List HPayload) (v : HValue) : Except Err (List (List Char × HValue)) :=
  match h.get? v.ref with
  | some (.objP m) => .ok m
  | _ => .error invalidCast

/-- A mutation through the reference `get_object()` returns. -/
def heapSetObject (h : List HPayload) (v : HValue) (m : List (List Char × HValue)) : List HPayload :=
  h.set v.ref (.objP m)

/-! ### Spec-side object rendering (for the refinement claim C5) -/

/-- Insert a pair into a key-sorted list of pairs (stable, by `keyLt`). -/
def insertPair (kv : List Char × Value) : List (List Char × Value) → List (List Char × Value)
  | [] => [kv]
  | p :: rest => if keyLt kv.1 p.1 then kv :: p :: rest else p :: insertPair kv rest

/-- Sort pairs by key: the "container's natural sorted order" of the spec. -/
def sortPairs (m : List (List Char × Value)) : List (List Char × Value) :=
  m.foldr insertPair []

/-- Join chunks with the ", " separator. -/
def joinCommaSp : List (List Char) → List Char
  | [] => []
  | [x] => x
  | x :: y :: rest => x ++ ',' :: ' ' :: joinCommaSp (y :: rest)

/-- Spec-side rendering of an Object, following the claim's words: `{`
    followed by the `"key": value` pairs joined by ", ", with keys in the
    container's natural sorted order and each key escaped, followed by `}`. -/
def renderObjectSpec (m : List (List Char × Value)) : List Char :=
  lbraceC ::
    (joinCommaSp ((sortPairs m).map
      (fun kv => quoteC :: (escape kv.1 ++ quoteC :: ':' :: ' ' :: renderV kv.2)))
     ++ [rbraceC])

/-- Boolean: is this result a thrown `json::exception`? -/
def isErrB {α : Type} : Except Err α → Bool
  | .error (.msg _) => true
  | _ => false

/-- Boolean: did this result succeed? -/
def isOkB {α : Type} : Except Err α → Bool
  | .ok _ => true
  | _ => false

/-! ### Small laws about escaping -/

/-- `unescape` copies an ordinary character (neither NUL nor backslash). -/
theorem unescape_cons_plain (c : Char) (l : List Char) (h1 : c ≠ nulC) (h2 : c ≠ backslashC) :
    unescape (c :: l) = c :: unescape l := by
  rw [unescape.eq_def]
  cases l <;> simp [h1, h2]

/-- `unescape` reduces a backslash-prefixed pair to its second character. -/
theorem unescape_cons_bs (d : Char) (l : List Char) :
    unescape (backslashC :: d :: l) = d :: unescape l := by
  rw [unescape.eq_def]
  have hne : backslashC ≠ nulC := by decide
  simp [hne]

/-! ### Claim C2 — strictness of the four probe inputs -/

/-- C2 counterexample: the claim says `parse` of the object text with a
    trailing comma fails, but `parse_object` checks its `'}' && !got_key`
    return case before anything else, so the trailing comma is accepted and
    the parse succeeds with the single-entry object. -/
theorem c2_trailing_comma_accepted :
    parse ("\x7b\"a\":1,\x7d") = .ok (.vobj [(['a'], .vnum 1)]) := by rfl

/-- C2 (amended): `parse("[1,]")`, `parse("[1 2]")` and `parse("truex")` all
    fail with the exact exceptions the productions throw, while `parse` of
    `'{"a":1,}'` succeeds (the object production accepts a trailing comma),
    yielding the object with the single entry for key "a". -/
theorem c2_strictness :
    parse ("[1,]") = .error (.msg ("bad json"))
    ∧ parse ("[1 2]") = .error (.msg ("bad array"))
    ∧ parse ("truex") = .error (.msg ("garbage at end of input: x"))
    ∧ parse ("\x7b\"a\":1,\x7d") = .ok (.vobj [(['a'], .vnum 1)]) :=
  ⟨rfl, rfl, rfl, rfl⟩

/-! ### Claim C3 — accessor/tag coherence -/

/-- C3: a Number-tagged value reports `is_string() = false`, `get_string()`
    throws the "invalid cast" type-mismatch exception, and `get_number()`
    returns the stored magnitude; and for each variant T, `get_T` succeeds
    exactly when `is_T` holds, and throws "invalid cast" exactly otherwise. -/
theorem c3_type_safety :
    (∀ q : Rat, is_string (Value.vnum q) = false
      ∧ get_string (Value.vnum q) = .error invalidCast
      ∧ get_number (Value.vnum q) = .ok q)
    ∧ (∀ v : Value,
        (isOkB (get_array v) = is_array v)
        ∧ (get_array v = .error invalidCast ↔ is_array v = false)
        ∧ (isOkB (get_bool v) = is_bool v)
        ∧ (get_bool v = .error invalidCast ↔ is_bool v = false)
        ∧ (isOkB (get_number v) = is_number v)
        ∧ (get_number v = .error invalidCast ↔ is_number v = false)
        ∧ (isOkB (get_object v) = is_object v)
        ∧ (get_object v = .error invalidCast ↔ is_object v = false)
        ∧ (isOkB (get_string v) = is_string v)
        ∧ (get_string v = .error invalidCast ↔ is_string v = false)) := by
  constructor
  · intro q; exact ⟨rfl, rfl, rfl⟩
  · intro v
    cases v <;>
      simp [get_array, is_array, get_bool, is_bool, get_number, is_number,
        get_object, is_object, get_string, is_string, isOkB, invalidCast]

/-! ### Claim C4 — escaping round-trip -/

/-- C4: for strings of printable ASCII (which includes the double quote and
    the backslash), `unescape(escape(s)) = s`. -/
theorem c4_escape_roundtrip (s : List Char)
    (h : ∀ c ∈ s, 32 ≤ c.toNat ∧ c.toNat ≤ 126) :
    unescape (escape s) = s := by
  induction s with
  | nil => rfl
  | cons c rest ih =>
    have hc := h c (by simp)
    have hrest := ih (fun x hx => h x (List.mem_cons_of_mem _ hx))
    have hcnul : c ≠ nulC := by
      intro hh
      rw [hh] at hc
      simp [nulC] at hc
    by_cases hq : c = quoteC
    · subst hq
      have h1 : escape (quoteC :: rest) = backslashC :: quoteC :: escape rest := by
        simp [escape]
      rw [h1, unescape_cons_bs, hrest]
    · by_cases hb : c = backslashC
      · subst hb
        have h1 : escape (backslashC :: rest) = backslashC :: backslashC :: escape rest := by
          simp [escape]
        rw [h1, unescape_cons_bs, hrest]
      · have h1 : escape (c :: rest) = c :: escape rest := by
          simp [escape, hq, hb]
        rw [h1, unescape_cons_plain c _ hcnul hb, hrest]

/-- C4 witness: the law at the concrete string `a"b\`. -/
theorem c4_escape_roundtrip_witness :
    (∀ c ∈ ("a\"b\\").toList, 32 ≤ c.toNat ∧ c.toNat ≤ 126)
    ∧ unescape (escape (("a\"b\\").toList)) = ("a\"b\\").toList :=
  ⟨by decide, c4_escape_roundtrip _ (by decide)⟩

/-! ### Claim C7 — scenario -/

/-- C7: parsing the scenario text yields the object with the single key "a"
    mapping to the five-element array of 1, 2.5, true, null, "x"; and
    rendering that value yields exactly the compact object text. -/
theorem c7_scenario :
    parse (" \x7b \"a\" : [1, 2.5, true, null, \"x\"] \x7d ")
      = .ok (.vobj [(['a'],
          .varr [.vnum (mkRat 1 1), .vnum (mkRat 5 2), .vbool true, .vnull, .vstr ['x']])])
    ∧ renderV (.vobj [(['a'],
          .varr [.vnum (mkRat 1 1), .vnum (mkRat 5 2), .vbool true, .vnull, .vstr ['x']])])
      = ("\x7b\"a\": [1, 2.5, true, null, \"x\"]\x7d").toList :=
  ⟨rfl, rfl⟩

/-! ### Claim C9 — copies share backing storage -/

/-- A list cell set at an in-range index is read back. -/
theorem get_set_self {α : Type} : ∀ (h : List α) (i : Nat) (x p : α),
    h.get? i = some p → (h.set i x).get? i = some x
  | [], i, x, p, hp => by simp at hp
  | a :: t, 0, x, p, hp => by simp
  | a :: t, i + 1, x, p, hp => by
    simpa using get_set_self t i x p (by simpa using hp)

/-- C9: copying a Value copies only the handle (tag and cell address), so for
    an Array- or Object-tagged value, a payload mutation through the copy is
    visible through the original's accessor, and vice versa. -/
theorem c9_copy_shares_storage (h : List HPayload) (v : HValue) :
    (∀ xs0 xs1, v.tag = .JSON_ARRAY → heapGetArray h v = .ok xs0 →
      heapGetArray (heapSetArray h (copyValue v) xs1) v = .ok xs1
      ∧ heapGetArray (heapSetArray h v xs1) (copyValue v) = .ok xs1)
    ∧ (∀ m0 m1, v.tag = .JSON_OBJECT → heapGetObject h v = .ok m0 →
      heapGetObject (heapSetObject h (copyValue v) m1) v = .ok m1
      ∧ heapGetObject (heapSetObject h v m1) (copyValue v) = .ok m1) := by
  constructor
  · intro xs0 xs1 _ hget
    have hp : ∃ p, h.get? v.ref = some p := by
      unfold heapGetArray at hget
      match hh : h.get? v.ref with
      | some p => exact ⟨p, rfl⟩
      | none => rw [hh] at hget; simp at hget
    obtain ⟨p, hp⟩ := hp
    have hset := get_set_self h v.ref (HPayload.arrP xs1) p hp
    constructor
    · unfold heapGetArray heapSetArray copyValue
      rw [hset]
    · unfold heapGetArray heapSetArray copyValue
      rw [hset]
  · intro m0 m1 _ hget
    have hp : ∃ p, h.get? v.ref = some p := by
      unfold heapGetObject at hget
      match hh : h.get? v.ref with
      | some p => exact ⟨p, rfl⟩
      | none => rw [hh] at hget; simp at hget
    obtain ⟨p, hp⟩ := hp
    have hset := get_set_self h v.ref (HPayload.objP m1) p hp
    constructor
    · unfold heapGetObject heapSetObject copyValue
      rw [hset]
    · unfold heapGetObject heapSetObject copyValue
      rw [hset]

/-- C9 witness: a one-cell heap holding an array payload; a mutation through
    the copy is seen through the original handle. -/
theorem c9_copy_shares_storage_witness :
    (HValue.mk .JSON_ARRAY 0).tag = .JSON_ARRAY
    ∧ heapGetArray [HPayload.arrP []] ⟨.JSON_ARRAY, 0⟩ = .ok []
    ∧ heapGetArray
        (heapSetArray [HPayload.arrP []] (copyValue ⟨.JSON_ARRAY, 0⟩) [⟨.JSON_NULL, 1⟩])
        ⟨.JSON_ARRAY, 0⟩ = .ok [⟨.JSON_NULL, 1⟩] :=
  ⟨rfl, rfl,
    ((c9_copy_shares_storage [HPayload.arrP []] ⟨.JSON_ARRAY, 0⟩).1
      [] [⟨.JSON_NULL, 1⟩] rfl rfl).1⟩

/-! ### Claim C6 — the number production -/

theorem takeWhile_cons_pos {p : Char → Bool} {d : Char} (l : List Char) (h : p d = true) :
    (d :: l).takeWhile p = d :: l.takeWhile p := by
  simp [List.takeWhile_cons, h]

theorem takeWhile_cons_neg {p : Char → Bool} {d : Char} (l : List Char) (h : p d = false) :
    (d :: l).takeWhile p = [] := by
  simp [List.takeWhile_cons, h]

theorem parse_number_spec :
    ∀ (l acc : List Char) (f : Nat), l.length + 1 ≤ f →
      parse_number strOps f l acc =
        .ok (.vnum (strtodQ (acc ++ (l.headD nulC) :: (l.tail.takeWhile numClass))),
             l.drop ((l.tail.takeWhile numClass)).length) := by
  intro l
  induction l with
  | nil =>
    intro acc f hf
    match f, hf with
    | f + 1, _ =>
      rw [parse_number]
      rfl
  | cons c tail ih =>
    intro acc f hf
    match f, hf with
    | f + 1, hf =>
      rw [parse_number]
      cases tail with
      | nil => rfl
      | cons d t' =>
        show (if numClass d = true then _ else _) = _
        cases hd : numClass d with
        | true =>
          rw [if_pos rfl]
          show (if (true : Bool) = true then _ else _) = _
          rw [if_pos rfl]
          have ihx := ih (acc ++ [c]) f (by simp at hf ⊢; omega)
          show parse_number strOps f (d :: t') (acc ++ [c]) = _
          rw [ihx]
          simp only [List.tail_cons, List.headD_cons]
          rw [takeWhile_cons_pos _ hd]
          simp [strOps, List.append_assoc, List.length_cons, List.drop_succ_cons]
        | false =>
          rw [if_neg (by simp [hd])]
          simp only [List.tail_cons, List.headD_cons]
          rw [takeWhile_cons_neg _ hd]
          simp [strOps]

/-- A digit character is none of the other dispatch characters. -/
theorem digit_not_dispatch {c : Char} (h : c.isDigit = true) :
    c ≠ quoteC ∧ c ≠ '[' ∧ c ≠ lbraceC := by
  refine ⟨fun hc => ?_, fun hc => ?_, fun hc => ?_⟩ <;>
    (subst hc; exact absurd h (by decide))

/-- The dispatch in `detail::parse`: a digit or minus at a value-start
    position enters the number production at the current position. -/
theorem parseVal_dispatch_number {c : Char} (l : List Char) (f : Nat)
    (h : (c.isDigit || c = '-') = true) :
    parseVal strOps (f + 1) (c :: l) = parse_number strOps f (c :: l) [] := by
  rw [parseVal]
  have hne : c ≠ quoteC ∧ c ≠ '[' ∧ c ≠ lbraceC := by
    rcases Bool.or_eq_true_iff.mp h with hd | hm
    · exact digit_not_dispatch hd
    · have : c = '-' := by simpa using hm
      subst this
      exact ⟨by decide, by decide, by decide⟩
  have h0 : strOps.deref (c :: l) = c := rfl
  rw [h0, if_neg (by simp [hne.1]), if_neg (by simp [hne.2.1]),
    if_neg (by simp [hne.2.2]), if_pos h]

/-- C6: a leading digit or minus at a value-start position dispatches to the
    number production, which collects the current character and then exactly
    the maximal following run of digit, minus, dot, e, E, plus characters, converts the
    collected text with the (unvalidated) stream extraction, and never
    rejects; in particular parse("--1") succeeds with 0 (failed extraction
    stores 0) and parse("1.2.3") succeeds with 1.2 (longest valid prefix). -/
theorem c6_number_leniency :
    (∀ (c : Char) (l : List Char) (f : Nat), (c.isDigit || c = '-') = true →
      parseVal strOps (f + 1) (c :: l) = parse_number strOps f (c :: l) [])
    ∧ (∀ (l acc : List Char) (f : Nat), l.length + 1 ≤ f →
      parse_number strOps f l acc =
        .ok (.vnum (strtodQ (acc ++ (l.headD nulC) :: (l.tail.takeWhile numClass))),
             l.drop ((l.tail.takeWhile numClass)).length))
    ∧ parse ("--1") = .ok (.vnum 0)
    ∧ parse ("1.2.3") = .ok (.vnum (mkRat 6 5)) :=
  ⟨fun _ l f h => parseVal_dispatch_number l f h, parse_number_spec, rfl, rfl⟩

/-- C6 witness: the dispatch at '1' before "1.2.3", and the collection law
    on the concrete text "--1". -/
theorem c6_number_leniency_witness :
    (('1'.isDigit || '1' = '-') = true
      ∧ parseVal strOps (9 + 1) ("1.2.3").toList = parse_number strOps 9 ("1.2.3").toList [])
    ∧ (("--1").toList.length + 1 ≤ 9
      ∧ parse_number strOps 9 (("--1").toList) [] =
        .ok (.vnum (strtodQ ([] ++ ((("--1").toList).headD nulC)
              :: ((("--1").toList).tail.takeWhile numClass))),
             ("--1").toList.drop (((("--1").toList).tail.takeWhile numClass)).length)) :=
  ⟨⟨by decide, c6_number_leniency.1 '1' (".2.3").toList 9 (by decide)⟩,
   ⟨by decide, c6_number_leniency.2.1 (("--1").toList) [] 9 (by decide)⟩⟩

/-! ### Claim C5 — object and empty-container rendering -/

theorem sortedKeysB_tail {kv : List Char × Value} {rest : List (List Char × Value)}
    (h : sortedKeysB (kv :: rest) = true) : sortedKeysB rest = true := by
  cases rest with
  | nil => rfl
  | cons p r =>
    have h2 := h
    rw [sortedKeysB] at h2
    exact (Bool.and_eq_true_iff.mp h2).2

theorem sortedKeysB_head {kv p : List Char × Value} {r : List (List Char × Value)}
    (h : sortedKeysB (kv :: p :: r) = true) : keyLt kv.1 p.1 = true := by
  rw [sortedKeysB] at h
  exact (Bool.and_eq_true_iff.mp h).1

/-- On an already-sorted pair list the spec-side sort is the identity. -/
theorem sortPairs_sorted : ∀ m, sortedKeysB m = true → sortPairs m = m := by
  intro m
  induction m with
  | nil => intro _; rfl
  | cons kv rest ih =>
    intro h
    have hrest : sortPairs rest = rest := ih (sortedKeysB_tail h)
    have hstep : sortPairs (kv :: rest) = insertPair kv (sortPairs rest) := rfl
    rw [hstep, hrest]
    cases rest with
    | nil => rfl
    | cons p r =>
      rw [insertPair, if_pos (sortedKeysB_head h)]

/-- The object rendering loop is the comma-space join of the per-entry
    chunks. -/
theorem renderPairs_eq_join : ∀ m, renderPairs m =
    joinCommaSp (m.map (fun kv => quoteC :: (escape kv.1 ++ quoteC :: ':' :: ' ' :: renderV kv.2)))
  | [] => rfl
  | [kv] => rfl
  | kv :: p :: rest => by
    rw [renderPairs, List.map_cons, List.map_cons, joinCommaSp,
      renderPairs_eq_join (p :: rest), List.map_cons]

/-- C5: for a well-formed (key-sorted, as every `std::map` is) Object value,
    the code's rendering equals the spec-side rendering: open brace, the
    escaped-key "key": value chunks joined by comma-space in sorted key
    order, close brace; and the empty Object and empty Array render exactly
    to the two-character texts. -/
theorem c5_object_rendering :
    (∀ m, sortedKeysB m = true → renderV (.vobj m) = renderObjectSpec m)
    ∧ renderV (.vobj []) = ("\x7b\x7d").toList
    ∧ renderV (.varr []) = ("[]").toList := by
  refine ⟨?_, rfl, rfl⟩
  intro m hm
  rw [renderObjectSpec, sortPairs_sorted m hm]
  have h1 : renderV (.vobj m) = lbraceC :: (renderPairs m ++ [rbraceC]) := by
    rw [renderV]
  rw [h1, renderPairs_eq_join]

/-- C5 witness: a concrete two-entry sorted object. -/
theorem c5_object_rendering_witness :
    sortedKeysB [(['a'], Value.vnull), (['b'], Value.vbool true)] = true
    ∧ renderV (.vobj [(['a'], Value.vnull), (['b'], Value.vbool true)])
      = renderObjectSpec [(['a'], Value.vnull), (['b'], Value.vbool true)] :=
  ⟨by decide, c5_object_rendering.1 _ (by decide)⟩

/-! ### Key-order laws -/

theorem keyLt_irrefl : ∀ k, keyLt k k = false
  | [] => rfl
  | a :: as => by
    rw [keyLt]
    simp [keyLt_irrefl as]

theorem keyLt_trans : ∀ a b c, keyLt a b = true → keyLt b c = true → keyLt a c = true
  | [], [], _ :: _, _, _ => rfl
  | [], _ :: _, _ :: _, _, _ => rfl
  | a :: as, b :: bs, c :: cs, h1, h2 => by
    rw [keyLt] at h1 h2 ⊢
    by_cases hab : a < b
    · by_cases hbc : b < c
      · rw [if_pos (lt_trans hab hbc)]
      · rw [if_neg hbc] at h2
        by_cases hbc2 : b = c
        · rw [if_pos (hbc2 ▸ hab)]
        · rw [if_neg hbc2] at h2; exact absurd h2 (by simp)
    · rw [if_neg hab] at h1
      by_cases hab2 : a = b
      · rw [if_pos hab2] at h1
        subst hab2
        by_cases hbc : a < c
        · rw [if_pos hbc]
        · rw [if_neg hbc] at h2 ⊢
          by_cases hbc2 : a = c
          · rw [if_pos hbc2] at h2 ⊢
            exact keyLt_trans as bs cs h1 h2
          · rw [if_neg hbc2] at h2; exact absurd h2 (by simp)
      · rw [if_neg hab2] at h1; exact absurd h1 (by simp)

theorem keyLt_eq_of_not : ∀ a b, keyLt a b = false → keyLt b a = false → a = b
  | [], [], _, _ => rfl
  | [], _ :: _, h1, _ => by rw [keyLt] at h1; exact absurd h1 (by simp)
  | _ :: _, [], _, h2 => by rw [keyLt] at h2; exact absurd h2 (by simp)
  | a :: as, b :: bs, h1, h2 => by
    rw [keyLt] at h1 h2
    by_cases hab : a < b
    · rw [if_pos hab] at h1; exact absurd h1 (by simp)
    · by_cases hba : b < a
      · rw [if_pos hba] at h2; exact absurd h2 (by simp)
      · have hEq : a = b := le_antisymm (not_lt.mp hba) (not_lt.mp hab)
        subst hEq
        rw [if_neg hab, if_pos rfl] at h1
        rw [if_neg hab, if_pos rfl] at h2
        rw [keyLt_eq_of_not as bs h1 h2]

/-! ### `std::map` insert laws -/

theorem sortedKeysB_cons_of (p : List Char × Value) (m : List (List Char × Value))
    (h1 : sortedKeysB m = true)
    (h2 : ∀ hd tl, m = hd :: tl → keyLt p.1 hd.1 = true) :
    sortedKeysB (p :: m) = true := by
  cases m with
  | nil => rfl
  | cons hd tl =>
    rw [sortedKeysB]
    simp [h1, h2 hd tl rfl]

theorem mapInsert_mem : ∀ (m : List (List Char × Value)) k v kv,
    kv ∈ mapInsert m k v → kv = (k, v) ∨ kv ∈ m := by
  intro m k v
  induction m with
  | nil =>
    intro kv h
    rw [mapInsert] at h
    simp at h
    exact Or.inl h
  | cons p rest ih =>
    intro kv h
    rw [mapInsert] at h
    by_cases h1 : keyLt k p.1 = true
    · rw [if_pos h1] at h
      rcases List.mem_cons.mp h with h | h
      · exact Or.inl h
      · exact Or.inr h
    · rw [if_neg h1] at h
      by_cases h2 : keyLt p.1 k = true
      · rw [if_pos h2] at h
        rcases List.mem_cons.mp h with h | h
        · exact Or.inr (by simp [h])
        · rcases ih kv h with h3 | h3
          · exact Or.inl h3
          · exact Or.inr (List.mem_cons_of_mem _ h3)
      · rw [if_neg h2] at h
        rcases List.mem_cons.mp h with h | h
        · exact Or.inl h
        · exact Or.inr (List.mem_cons_of_mem _ h)

theorem mapInsert_sorted : ∀ (m : List (List Char × Value)) k v,
    sortedKeysB m = true → sortedKeysB (mapInsert m k v) = true := by
  intro m k v
  induction m with
  | nil => intro _; rfl
  | cons p rest ih =>
    intro h
    have hrest : sortedKeysB rest = true := sortedKeysB_tail h
    have hhead : ∀ hd tl, rest = hd :: tl → keyLt p.1 hd.1 = true := by
      intro hd tl heq
      subst heq
      exact sortedKeysB_head h
    rw [mapInsert]
    by_cases h1 : keyLt k p.1 = true
    · rw [if_pos h1]
      exact sortedKeysB_cons_of _ _ h (fun hd tl heq => by
        cases heq; exact h1)
    · rw [if_neg h1]
      by_cases h2 : keyLt p.1 k = true
      · rw [if_pos h2]
        apply sortedKeysB_cons_of _ _ (ih hrest)
        intro hd tl heq
        cases rest with
        | nil =>
          rw [mapInsert] at heq
          cases heq
          exact h2
        | cons p2 r2 =>
          rw [mapInsert] at heq
          by_cases h3 : keyLt k p2.1 = true
          · rw [if_pos h3] at heq
            cases heq
            exact h2
          · rw [if_neg h3] at heq
            by_cases h4 : keyLt p2.1 k = true
            · rw [if_pos h4] at heq
              cases heq
              exact hhead p2 r2 rfl
            · rw [if_neg h4] at heq
              cases heq
              exact h2
      · rw [if_neg h2]
        have hk : p.1 = k :=
          keyLt_eq_of_not p.1 k (by simpa using h2) (by simpa using h1)
        apply sortedKeysB_cons_of _ _ hrest
        intro hd tl heq
        have h5 := hhead hd tl heq
        rw [hk] at h5
        exact h5

/-- Every key of a sorted tail is above the head key. -/
theorem sorted_all_gt : ∀ (p : List Char × Value) m,
    sortedKeysB (p :: m) = true → ∀ kv ∈ m, keyLt p.1 kv.1 = true := by
  intro p m
  induction m generalizing p with
  | nil => intro _ kv h; simp at h
  | cons q rest ih =>
    intro h kv hm
    have hq : keyLt p.1 q.1 = true := sortedKeysB_head h
    rcases List.mem_cons.mp hm with h2 | h2
    · subst h2; exact hq
    · exact keyLt_trans _ _ _ hq (ih q (sortedKeysB_tail h) kv h2)

/-- Lookup in the association-list model of the map. -/
def lookupKey : List (List Char × Value) → List Char → Option Value
  | [], _ => none
  | (k', v) :: rest, k => if k' = k then some v else lookupKey rest k

/-- Number of entries carrying a given key. -/
def countKey (m : List (List Char × Value)) (k : List Char) : Nat :=
  (m.filter (fun kv => kv.1 = k)).length

theorem countKey_nil_of (m : List (List Char × Value)) (k : List Char)
    (h : ∀ kv ∈ m, kv.1 ≠ k) : countKey m k = 0 := by
  rw [countKey, List.filter_eq_nil_iff.mpr]
  · rfl
  · intro kv hm
    simp [h kv hm]

theorem countKey_sorted : ∀ (m : List (List Char × Value)), sortedKeysB m = true →
    ∀ k, countKey m k ≤ 1 := by
  intro m
  induction m with
  | nil => intro _ k; simp [countKey]
  | cons p rest ih =>
    intro h k
    have hrest := ih (sortedKeysB_tail h) k
    by_cases hk : p.1 = k
    · have hzero : countKey rest k = 0 := by
        apply countKey_nil_of
        intro kv hm hkk
        have := sorted_all_gt p rest h kv hm
        rw [hk, hkk] at this
        exact absurd this (by simp [keyLt_irrefl])
      rw [countKey, List.filter_cons]
      simp only [hk]
      rw [countKey] at hzero
      simp [hzero]
    · rw [countKey, List.filter_cons]
      simp only [hk]
      simpa [countKey] using hrest

theorem lookupKey_mapInsert : ∀ (m : List (List Char × Value)) k v,
    lookupKey (mapInsert m k v) k = some v := by
  intro m k v
  induction m with
  | nil => simp [mapInsert, lookupKey]
  | cons p rest ih =>
    rw [mapInsert]
    by_cases h1 : keyLt k p.1 = true
    · rw [if_pos h1]
      simp [lookupKey]
    · rw [if_neg h1]
      by_cases h2 : keyLt p.1 k = true
      · rw [if_pos h2]
        have hne : p.1 ≠ k := by
          intro heq
          rw [heq] at h2
          exact absurd h2 (by simp [keyLt_irrefl])
        rw [lookupKey, if_neg hne]
        exact ih
      · rw [if_neg h2]
        simp [lookupKey]

/-! ### Well-formedness and number-fidelity predicates -/

/-- The invariant every parser-produced value satisfies: object entry lists
    carry the `std::map` strictly-sorted key order, recursively. -/
inductive WFV : Value → Prop where
  | wnull : WFV .vnull
  | wbool (b : Bool) : WFV (.vbool b)
  | wnum (q : Rat) : WFV (.vnum q)
  | wstr (s : List Char) : WFV (.vstr s)
  | warr (xs : List Value) : (∀ x ∈ xs, WFV x) → WFV (.varr xs)
  | wobj (m : List (List Char × Value)) :
      sortedKeysB m = true → (∀ kv ∈ m, WFV kv.2) → WFV (.vobj m)

/-- Number fidelity: every numeric leaf survives the render-then-extract
    cycle (default-precision-6 rendering loses digits beyond six significant
    figures, so such numbers violate this). -/
inductive NumOK : Value → Prop where
  | nnull : NumOK .vnull
  | nbool (b : Bool) : NumOK (.vbool b)
  | nnum (q : Rat) : strtodQ (formatQ q) = q → NumOK (.vnum q)
  | nstr (s : List Char) : NumOK (.vstr s)
  | narr (xs : List Value) : (∀ x ∈ xs, NumOK x) → NumOK (.varr xs)
  | nobj (m : List (List Char × Value)) : (∀ kv ∈ m, NumOK kv.2) → NumOK (.vobj m)

/-! ### Character-class facts -/

theorem ws_elim {c : Char} (h : is_whitespace c = true) :
    c = ' ' ∨ c = Char.ofNat 13 ∨ c = Char.ofNat 10 ∨ c = Char.ofNat 9 := by
  rw [is_whitespace] at h
  simp at h
  tauto

theorem ws_not_dispatch {c : Char} (h : is_whitespace c = true) :
    c ≠ quoteC ∧ c ≠ '[' ∧ c ≠ lbraceC ∧ (c.isDigit || c = '-') = false
    ∧ c ≠ 'n' ∧ c ≠ 't' ∧ c ≠ 'f' := by
  rcases ws_elim h with h | h | h | h <;> subst h <;>
    exact ⟨by decide, by decide, by decide, by decide, by decide, by decide, by decide⟩

theorem digit_not_ws {c : Char} (h : c.isDigit = true) : is_whitespace c = false := by
  cases h2 : is_whitespace c with
  | false => rfl
  | true =>
    rcases ws_elim h2 with h3 | h3 | h3 | h3 <;> subst h3 <;> exact absurd h (by decide)

theorem digit_numClass {c : Char} (h : c.isDigit = true) : numClass c = true := by
  rw [numClass, h]
  rfl

theorem digit_not_close {c : Char} (h : c.isDigit = true) :
    c ≠ ']' ∧ c ≠ ',' ∧ c ≠ rbraceC := by
  refine ⟨fun hc => ?_, fun hc => ?_, fun hc => ?_⟩ <;>
    (subst hc; exact absurd h (by decide))

/-! ### Digit-text facts -/

theorem digitChar_isDigit (d : Nat) : (digitChar d).isDigit = true := by
  rw [digitChar]
  have h : d % 10 < 10 := Nat.mod_lt _ (by omega)
  set e := d % 10 with he
  interval_cases e <;> decide

theorem natToCharsAux_digits : ∀ (f n : Nat), ∀ c ∈ natToCharsAux f n, c.isDigit = true := by
  intro f
  induction f with
  | zero => intro n c hc; simp [natToCharsAux] at hc
  | succ f ih =>
    intro n c hc
    rw [natToCharsAux] at hc
    by_cases hn : n < 10
    · rw [if_pos hn] at hc
      simp at hc
      subst hc
      exact digitChar_isDigit n
    · rw [if_neg hn] at hc
      rcases List.mem_append.mp hc with h | h
      · exact ih _ c h
      · simp at h
        subst h
        exact digitChar_isDigit (n % 10)

theorem natToChars_digits (n : Nat) : ∀ c ∈ natToChars n, c.isDigit = true :=
  natToCharsAux_digits (n + 1) n

theorem natToCharsAux_ne_nil (f n : Nat) : natToCharsAux (f + 1) n ≠ [] := by
  rw [natToCharsAux]
  by_cases hn : n < 10
  · rw [if_pos hn]; simp
  · rw [if_neg hn]; simp

theorem natToChars_ne_nil (n : Nat) : natToChars n ≠ [] := natToCharsAux_ne_nil n n

theorem stripZeros_subset (l : List Char) : ∀ c ∈ stripZeros l, c ∈ l := by
  intro c hc
  rw [stripZeros] at hc
  rw [List.mem_reverse] at hc
  have h2 := (List.dropWhile_sublist _).subset hc
  rwa [List.mem_reverse] at h2


/-! ### Shape facts about the number rendering -/

theorem fmtFixed_all_numClass (ds : List Char) (X : Int)
    (hds : ∀ c ∈ ds, c.isDigit = true) : ∀ c ∈ fmtFixed ds X, numClass c = true := by
  intro c hc
  simp only [fmtFixed] at hc
  split at hc
  · split at hc
    · exact digit_numClass (hds c (List.take_subset _ _ hc))
    · rcases List.mem_append.mp hc with h | h
      · exact digit_numClass (hds c (List.take_subset _ _ h))
      · rcases List.mem_cons.mp h with h | h
        · subst h; decide
        · exact digit_numClass (hds c (List.drop_subset _ _ (stripZeros_subset _ c h)))
  · rcases List.mem_cons.mp hc with h | h
    · subst h; decide
    · rcases List.mem_cons.mp h with h | h
      · subst h; decide
      · rcases List.mem_append.mp h with h | h
        · have h2 := List.eq_of_mem_replicate h
          subst h2; decide
        · exact digit_numClass (hds c (stripZeros_subset _ c h))

theorem fmtSci_all_numClass (ds : List Char) (X : Int)
    (hds : ∀ c ∈ ds, c.isDigit = true) : ∀ c ∈ fmtSci ds X, numClass c = true := by
  intro c hc
  simp only [fmtSci] at hc
  rcases List.mem_append.mp hc with h | h
  · rcases List.mem_append.mp h with h | h
    · exact digit_numClass (hds c (List.take_subset _ _ h))
    · split at h
      · simp at h
      · rcases List.mem_cons.mp h with h | h
        · subst h; decide
        · exact digit_numClass (hds c (List.drop_subset _ _ (stripZeros_subset _ c h)))
  · rcases List.mem_cons.mp h with h | h
    · subst h; decide
    · rcases List.mem_cons.mp h with h | h
      · have h2 : c = '+' ∨ c = '-' := by
          split at h
          · exact Or.inl h
          · exact Or.inr h
        rcases h2 with h2 | h2 <;> (subst h2; decide)
      · split at h
        · rcases List.mem_cons.mp h with h | h
          · subst h; decide
          · rcases List.mem_cons.mp h with h | h
            · subst h
              exact digit_numClass (digitChar_isDigit _)
            · simp at h
        · exact digit_numClass (natToChars_digits _ c h)

theorem fmtPos_all_numClass (q : Rat) : ∀ c ∈ fmtPos q, numClass c = true := by
  intro c hc
  simp only [fmtPos] at hc
  split at hc <;> split at hc <;>
    first
    | exact fmtFixed_all_numClass _ _ (natToChars_digits _) c hc
    | exact fmtSci_all_numClass _ _ (natToChars_digits _) c hc

theorem formatQ_all_numClass (q : Rat) : ∀ c ∈ formatQ q, numClass c = true := by
  intro c hc
  rw [formatQ] at hc
  split at hc
  · simp at hc
    subst hc; decide
  · split at hc
    · rcases List.mem_cons.mp hc with h | h
      · subst h; decide
      · exact fmtPos_all_numClass _ c h
    · exact fmtPos_all_numClass _ c hc

theorem headD_take_app {d : Char} (t rest : List Char) (k : Nat) :
    (((d :: t).take (k + 1) ++ rest).headD nulC) = d := by
  simp [List.take_succ_cons]

theorem headD_take {d : Char} (t : List Char) (k : Nat) :
    ((((d :: t).take (k + 1))).headD nulC) = d := by
  simp [List.take_succ_cons]

theorem fmtFixed_head {d : Char} (t : List Char) (X : Int) (hd : d.isDigit = true) :
    ((fmtFixed (d :: t) X).headD nulC).isDigit = true := by
  simp only [fmtFixed]
  split
  · split
    · rw [headD_take]
      exact hd
    · rw [headD_take_app]
      exact hd
  · rw [List.headD_cons]
    decide

theorem fmtSci_head {d : Char} (t : List Char) (X : Int) :
    (fmtSci (d :: t) X).headD nulC = d := by
  simp only [fmtSci]
  simp [List.take_succ_cons]

theorem fmtPos_head_digit (q : Rat) : ((fmtPos q).headD nulC).isDigit = true := by
  simp only [fmtPos]
  split <;> split
  all_goals (
    obtain ⟨d, t, hds⟩ := List.exists_cons_of_ne_nil (natToChars_ne_nil _)
    rw [hds]
    first
    | exact fmtFixed_head t _ (natToChars_digits _ d (by rw [hds]; exact List.mem_cons_self _ _))
    | (rw [fmtSci_head]
       exact natToChars_digits _ d (by rw [hds]; exact List.mem_cons_self _ _)))

theorem formatQ_head_dispatch (q : Rat) :
    (((formatQ q).headD nulC).isDigit || ((formatQ q).headD nulC = '-')) = true := by
  rw [formatQ]
  split
  · decide
  · split
    · simp
    · exact Bool.or_eq_true_iff.mpr (Or.inl (fmtPos_head_digit q))

theorem formatQ_ne_nil (q : Rat) : formatQ q ≠ [] := by
  intro h
  have h2 := formatQ_head_dispatch q
  rw [h] at h2
  exact absurd h2 (by decide)

theorem renderV_ne_nil (v : Value) : renderV v ≠ [] := by
  cases v with
  | vnull => simp [renderV]
  | vbool b => cases b <;> simp [renderV]
  | vnum q => simpa [renderV] using formatQ_ne_nil q
  | vstr s => simp [renderV]
  | varr xs => simp [renderV]
  | vobj m => simp [renderV]

theorem renderV_head_facts (v : Value) :
    is_whitespace ((renderV v).headD nulC) = false
    ∧ (renderV v).headD nulC ≠ ']' := by
  cases v with
  | vnull =>
    have hr : (renderV Value.vnull).headD nulC = 'n' := by simp [renderV]
    rw [hr]
    exact ⟨by decide, by decide⟩
  | vbool b =>
    cases b with
    | true =>
      have hr : (renderV (Value.vbool true)).headD nulC = 't' := by simp [renderV]
      rw [hr]
      exact ⟨by decide, by decide⟩
    | false =>
      have hr : (renderV (Value.vbool false)).headD nulC = 'f' := by simp [renderV]
      rw [hr]
      exact ⟨by decide, by decide⟩
  | vnum q =>
    have h2 := formatQ_head_dispatch q
    have hr : renderV (.vnum q) = formatQ q := by simp [renderV]
    rw [hr]
    rcases Bool.or_eq_true_iff.mp h2 with h | h
    · exact ⟨digit_not_ws h, (digit_not_close h).1⟩
    · rw [of_decide_eq_true h]
      exact ⟨by decide, by decide⟩
  | vstr s =>
    have hr : (renderV (Value.vstr s)).headD nulC = quoteC := by simp [renderV]
    rw [hr]
    exact ⟨by decide, by decide⟩
  | varr xs =>
    have hr : (renderV (Value.varr xs)).headD nulC = '[' := by simp [renderV]
    rw [hr]
    exact ⟨by decide, by decide⟩
  | vobj m =>
    have hr : (renderV (Value.vobj m)).headD nulC = lbraceC := by simp [renderV]
    rw [hr]
    exact ⟨by decide, by decide⟩

/-! ### Branch laws for the parser on string iterators -/

theorem strOps_deref_cons (c : Char) (l : List Char) : strOps.deref (c :: l) = c := rfl

theorem strOps_next_cons (c : Char) (l : List Char) : strOps.next (c :: l) = l := rfl

theorem strOps_hasMore_cons (c : Char) (l : List Char) :
    strOps.hasMore (c :: l) = true := rfl

theorem strOps_hasMore_of_ne (l : List Char) (h : l ≠ []) :
    strOps.hasMore l = true := by
  cases l with
  | nil => exact absurd rfl h
  | cons x r => rfl

theorem parse_string_step (f : Nat) (c : Char) (l : List Char) (esc : Bool) (acc : List Char) :
    parse_string strOps (f + 1) (c :: l) esc acc =
      if (c = quoteC && !esc) = true then .ok (acc, c :: l)
      else parse_string strOps f l (c = backslashC && !esc)
            (if (c = backslashC && !esc) = true then acc else acc ++ [c]) := rfl

theorem parseVal_quote (f : Nat) (l : List Char) (s : List Char) (r : List Char)
    (h : parse_string strOps f l false [] = .ok (s, r)) :
    parseVal strOps (f + 1) (quoteC :: l) = .ok (.vstr s, r) := by
  rw [parseVal]
  simp only [strOps_deref_cons, strOps_next_cons]
  simp [h]

theorem parseVal_arr (f : Nat) (l : List Char) (xs : List Value) (r : List Char)
    (h : parse_array strOps f l [] true false = .ok (xs, r)) :
    parseVal strOps (f + 1) ('[' :: l) = .ok (.varr xs, r) := by
  rw [parseVal]
  simp only [strOps_deref_cons, strOps_next_cons]
  simp [h, show ('[' : Char) ≠ quoteC from by decide]

theorem parseVal_obj (f : Nat) (l : List Char) (m : List (List Char × Value)) (r : List Char)
    (h : parse_object strOps f l [] [] false false = .ok (m, r)) :
    parseVal strOps (f + 1) (lbraceC :: l) = .ok (.vobj m, r) := by
  rw [parseVal]
  simp only [strOps_deref_cons, strOps_next_cons]
  simp [h, lbraceC, quoteC]

theorem parseVal_null (f : Nat) (r : List Char) :
    parseVal strOps (f + 1) ('n' :: 'u' :: 'l' :: 'l' :: r) = .ok (.vnull, 'l' :: r) := by
  rw [parseVal]
  simp only [strOps_deref_cons, strOps_next_cons]
  simp [show ('n' : Char) ≠ quoteC from by decide, show ('n' : Char) ≠ lbraceC from by decide]

theorem parseVal_true (f : Nat) (r : List Char) :
    parseVal strOps (f + 1) ('t' :: 'r' :: 'u' :: 'e' :: r) = .ok (.vbool true, 'e' :: r) := by
  rw [parseVal]
  simp only [strOps_deref_cons, strOps_next_cons]
  simp [show ('t' : Char) ≠ quoteC from by decide, show ('t' : Char) ≠ lbraceC from by decide]

theorem parseVal_false (f : Nat) (r : List Char) :
    parseVal strOps (f + 1) ('f' :: 'a' :: 'l' :: 's' :: 'e' :: r) = .ok (.vbool false, 'e' :: r) := by
  rw [parseVal]
  simp only [strOps_deref_cons, strOps_next_cons]
  simp [show ('f' : Char) ≠ quoteC from by decide, show ('f' : Char) ≠ lbraceC from by decide]

theorem parseVal_ws (f : Nat) (c : Char) (l : List Char)
    (hws : is_whitespace c = true) (hl : l ≠ []) :
    parseVal strOps (f + 1) (c :: l) = parseVal strOps f l := by
  obtain ⟨hq, hlb, hob, hd, hn, ht, hf⟩ := ws_not_dispatch hws
  rw [parseVal]
  simp only [strOps_deref_cons, strOps_next_cons]
  rw [if_neg hq, if_neg hlb, if_neg hob, if_neg (by simp [hd]), if_neg hn, if_neg ht,
    if_neg hf, if_pos hws, if_pos (strOps_hasMore_of_ne l hl)]

theorem parse_array_ws (f : Nat) (c : Char) (l : List Char) (rv : List Value)
    (accept hasElems : Bool) (hws : is_whitespace c = true) (hl : l ≠ []) :
    parse_array strOps (f + 1) (c :: l) rv accept hasElems
      = parse_array strOps f l rv accept hasElems := by
  rw [parse_array]
  simp only [strOps_deref_cons, strOps_next_cons]
  rw [if_pos hws, if_pos (strOps_hasMore_of_ne l hl)]

theorem parse_array_close (f : Nat) (l : List Char) (rv : List Value) (accept hasElems : Bool)
    (hx : (hasElems != accept) = true) :
    parse_array strOps (f + 1) (']' :: l) rv accept hasElems = .ok (rv, ']' :: l) := by
  rw [parse_array]
  simp only [strOps_deref_cons, strOps_next_cons]
  rw [if_neg (by decide)]
  rw [if_pos (by simp [hx])]

theorem parse_array_elem (f : Nat) (c : Char) (l : List Char) (rv : List Value)
    (hasElems : Bool) (v : Value) (d : Char) (r : List Char)
    (hws : is_whitespace c = false)
    (hcl : (c = ']' && (hasElems != true)) = false)
    (h : parseVal strOps f (c :: l) = .ok (v, d :: r)) (hr : r ≠ []) :
    parse_array strOps (f + 1) (c :: l) rv true hasElems
      = parse_array strOps f r (rv ++ [v]) false true := by
  rw [parse_array]
  simp only [strOps_deref_cons, strOps_next_cons]
  simp [hws, hcl, h, strOps_next_cons, strOps_hasMore_of_ne r hr]
  intro hc hh
  have h3 := hcl
  simp [hc] at h3
  rw [h3] at hh
  exact absurd hh (by decide)

theorem parse_array_comma (f : Nat) (l : List Char) (rv : List Value) (hasElems : Bool)
    (hl : l ≠ []) :
    parse_array strOps (f + 1) (',' :: l) rv false hasElems
      = parse_array strOps f l rv true hasElems := by
  rw [parse_array]
  simp only [strOps_deref_cons, strOps_next_cons]
  simp [strOps_hasMore_of_ne l hl, show is_whitespace ',' = false from by decide]

theorem parse_object_close (f : Nat) (l : List Char) (rv : List (List Char × Value))
    (key : List Char) (gotElems : Bool) :
    parse_object strOps (f + 1) (rbraceC :: l) rv key false gotElems = .ok (rv, rbraceC :: l) := by
  rw [parse_object]
  simp only [strOps_deref_cons, strOps_next_cons]
  rw [if_pos (by simp)]

theorem parse_object_ws (f : Nat) (c : Char) (l : List Char) (rv : List (List Char × Value))
    (key : List Char) (gotKey gotElems : Bool)
    (hws : is_whitespace c = true) (hl : l ≠ []) :
    parse_object strOps (f + 1) (c :: l) rv key gotKey gotElems
      = parse_object strOps f l rv key gotKey gotElems := by
  have hrb : c ≠ rbraceC := by
    intro hc
    subst hc
    exact absurd hws (by decide)
  rw [parse_object]
  simp only [strOps_deref_cons, strOps_next_cons]
  rw [if_neg (by simp [hrb]), if_pos hws, if_pos (strOps_hasMore_of_ne l hl)]

theorem parse_object_key (f : Nat) (l : List Char) (rv : List (List Char × Value))
    (key0 : List Char) (gotElems : Bool) (k : List Char) (d : Char) (r : List Char)
    (h : parse_string strOps f l false [] = .ok (k, d :: r)) (hr : r ≠ []) :
    parse_object strOps (f + 1) (quoteC :: l) rv key0 false gotElems
      = parse_object strOps f r rv k true gotElems := by
  rw [parse_object]
  simp only [strOps_deref_cons, strOps_next_cons]
  simp [h, strOps_next_cons, strOps_hasMore_of_ne r hr,
    show quoteC ≠ rbraceC from by decide, show is_whitespace quoteC = false from by decide]

theorem parse_object_colon (f : Nat) (l : List Char) (rv : List (List Char × Value))
    (key : List Char) (gotElems : Bool) (v : Value) (d : Char) (r : List Char)
    (h : parseVal strOps f l = .ok (v, d :: r)) (hr : r ≠ []) :
    parse_object strOps (f + 1) (':' :: l) rv key true gotElems
      = parse_object strOps f r (mapInsert rv key v) key false true := by
  rw [parse_object]
  simp only [strOps_deref_cons, strOps_next_cons]
  simp [h, strOps_next_cons, strOps_hasMore_of_ne r hr,
    show (':' : Char) ≠ quoteC from by decide,
    show is_whitespace ':' = false from by decide]

theorem parse_object_comma (f : Nat) (l : List Char) (rv : List (List Char × Value))
    (key : List Char) (hl : l ≠ []) :
    parse_object strOps (f + 1) (',' :: l) rv key false true
      = parse_object strOps f l rv key false true := by
  rw [parse_object]
  simp only [strOps_deref_cons, strOps_next_cons]
  simp [strOps_hasMore_of_ne l hl,
    show (',' : Char) ≠ quoteC from by decide,
    show (',' : Char) ≠ rbraceC from by decide,
    show is_whitespace ',' = false from by decide]

/-! ### The string production inverts escaping -/

theorem parse_string_escape :
    ∀ (s acc rest : List Char) (f : Nat), (escape s).length + 1 ≤ f →
      parse_string strOps f (escape s ++ quoteC :: rest) false acc
        = .ok (acc ++ s, quoteC :: rest) := by
  intro s
  induction s with
  | nil =>
    intro acc rest f hf
    match f, hf with
    | f + 1, _ =>
      show parse_string strOps (f + 1) (quoteC :: rest) false acc = _
      rw [parse_string_step]
      simp
  | cons c s' ih =>
    intro acc rest f hf
    by_cases hc : (c = quoteC || c = backslashC) = true
    · have hesc : escape (c :: s') = backslashC :: c :: escape s' := by
        rw [escape, if_pos hc]
        rfl
      rw [hesc] at hf ⊢
      simp only [List.length_cons] at hf
      match f, hf with
      | f + 2, hf =>
        rw [List.cons_append, List.cons_append, parse_string_step]
        rw [if_neg (by decide)]
        rw [if_pos (by decide)]
        rw [parse_string_step]
        rw [if_neg (by simp), if_neg (by simp)]
        have hflag : (decide (c = backslashC) && !(decide (backslashC = backslashC) && !false)) = false := by
          simp
        rw [hflag]
        rw [ih (acc ++ [c]) rest f (by omega)]
        simp
    · have hcq : c ≠ quoteC := by
        intro h2; rw [h2] at hc; simp at hc
      have hcb : c ≠ backslashC := by
        intro h2; rw [h2] at hc; simp at hc
      have hesc : escape (c :: s') = c :: escape s' := by
        rw [escape, if_neg (by simpa using hc)]
        rfl
      rw [hesc] at hf ⊢
      simp only [List.length_cons] at hf
      match f, hf with
      | f + 1, hf =>
        rw [List.cons_append, parse_string_step]
        rw [if_neg (by simp [hcq])]
        have hflag : (decide (c = backslashC) && !false) = false := by simp [hcb]
        rw [hflag]
        rw [if_neg (by simp)]
        rw [ih (acc ++ [c]) rest f (by omega)]
        simp

/-! ### Helpers for the render-parse round trip -/

/-- takeWhile runs through a block that satisfies the predicate and stops at
    a block that yields nothing. -/
theorem takeWhile_all_append (p : Char → Bool) :
    ∀ (a b : List Char), (∀ c ∈ a, p c = true) → b.takeWhile p = [] →
      (a ++ b).takeWhile p = a := by
  intro a
  induction a with
  | nil => intro b _ hb; simpa using hb
  | cons c t ih =>
    intro b ha hb
    have hc : p c = true := ha c (by simp)
    show ((c :: (t ++ b)).takeWhile p) = c :: t
    rw [takeWhile_cons_pos _ hc, ih b (fun x hx => ha x (by simp [hx])) hb]

/-- A list whose head (NUL when empty) is not a number character contributes
    nothing to a numClass takeWhile. -/
theorem takeWhile_numClass_nil {rest : List Char}
    (h : numClass (rest.headD nulC) = false) : rest.takeWhile numClass = [] := by
  cases rest with
  | nil => rfl
  | cons c t =>
    simp only [List.headD_cons] at h
    exact takeWhile_cons_neg _ h

/-- Skipping a whole block of whitespace in the value production costs one
    fuel per character. -/
theorem parseVal_ws_many :
    ∀ (w : List Char) (f : Nat) (l : List Char),
      (∀ c ∈ w, is_whitespace c = true) → l ≠ [] →
      parseVal strOps (f + w.length) (w ++ l) = parseVal strOps f l := by
  intro w
  induction w with
  | nil => intro f l _ _; simp
  | cons c t ih =>
    intro f l hw hl
    have h1 : t ++ l ≠ [] := by
      intro hnil
      rcases List.append_eq_nil.mp hnil with ⟨_, h2⟩
      exact hl h2
    show parseVal strOps ((f + t.length) + 1) (c :: (t ++ l)) = _
    rw [parseVal_ws (f + t.length) c (t ++ l) (hw c (by simp)) h1]
    exact ih f l (fun x hx => hw x (by simp [hx])) hl

/-- Ditto inside the object production. -/
theorem parse_object_ws_many :
    ∀ (w : List Char) (f : Nat) (l : List Char) (rv : List (List Char × Value))
      (key : List Char) (gotKey gotElems : Bool),
      (∀ c ∈ w, is_whitespace c = true) → l ≠ [] →
      parse_object strOps (f + w.length) (w ++ l) rv key gotKey gotElems
        = parse_object strOps f l rv key gotKey gotElems := by
  intro w
  induction w with
  | nil => intro f l rv key gk ge _ _; simp
  | cons c t ih =>
    intro f l rv key gk ge hw hl
    have h1 : t ++ l ≠ [] := by
      intro hnil
      rcases List.append_eq_nil.mp hnil with ⟨_, h2⟩
      exact hl h2
    show parse_object strOps ((f + t.length) + 1) (c :: (t ++ l)) rv key gk ge = _
    rw [parse_object_ws (f + t.length) c (t ++ l) rv key gk ge (hw c (by simp)) h1]
    exact ih f l rv key gk ge (fun x hx => hw x (by simp [hx])) hl

/-- The round-trip property of a single value: parsing its rendering (with
    any continuation that does not extend a number) returns the value with
    the cursor on the final rendered character. -/
def PVrender (v : Value) : Prop :=
  ∀ (rest : List Char) (f : Nat), numClass (rest.headD nulC) = false →
    3 * (renderV v ++ rest).length + 3 ≤ f →
    ∃ pre d, renderV v = pre ++ [d]
      ∧ parseVal strOps f (renderV v ++ rest) = .ok (v, d :: rest)

/-- Round trip for null. -/
theorem pv_null : PVrender .vnull := by
  intro rest f h hf
  simp only [renderV, List.length_append, List.length_cons] at hf
  obtain ⟨f', rfl⟩ : ∃ f', f = f' + 1 := ⟨f - 1, by omega⟩
  refine ⟨['n', 'u', 'l'], 'l', rfl, ?_⟩
  show parseVal strOps (f' + 1) ('n' :: 'u' :: 'l' :: 'l' :: rest) = _
  exact parseVal_null f' rest

/-- Round trip for booleans. -/
theorem pv_bool (b : Bool) : PVrender (.vbool b) := by
  intro rest f h hf
  cases b with
  | true =>
    simp only [renderV, if_pos, List.length_append, List.length_cons] at hf
    obtain ⟨f', rfl⟩ : ∃ f', f = f' + 1 := ⟨f - 1, by omega⟩
    refine ⟨['t', 'r', 'u'], 'e', rfl, ?_⟩
    show parseVal strOps (f' + 1) ('t' :: 'r' :: 'u' :: 'e' :: rest) = _
    exact parseVal_true f' rest
  | false =>
    simp only [renderV, if_neg, List.length_append, List.length_cons] at hf
    obtain ⟨f', rfl⟩ : ∃ f', f = f' + 1 := ⟨f - 1, by omega⟩
    refine ⟨['f', 'a', 'l', 's'], 'e', rfl, ?_⟩
    show parseVal strOps (f' + 1) ('f' :: 'a' :: 'l' :: 's' :: 'e' :: rest) = _
    exact parseVal_false f' rest

/-- Round trip for strings. -/
theorem pv_str (s : List Char) : PVrender (.vstr s) := by
  intro rest f h hf
  simp only [renderV, List.length_append, List.length_cons] at hf
  obtain ⟨f', rfl⟩ : ∃ f', f = f' + 1 := ⟨f - 1, by omega⟩
  refine ⟨quoteC :: escape s, quoteC, by simp [renderV], ?_⟩
  have hre : renderV (.vstr s) ++ rest = quoteC :: (escape s ++ (quoteC :: rest)) := by
    simp [renderV]
  rw [hre]
  refine parseVal_quote f' _ s (quoteC :: rest) ?_
  have hps := parse_string_escape s [] rest f' (by omega)
  simpa using hps

/-- Round trip for numbers whose rendering extracts back to the same
    rational. -/
theorem pv_num (q : Rat) (hq : strtodQ (formatQ q) = q) : PVrender (.vnum q) := by
  intro rest f h hf
  rcases (List.eq_nil_or_concat (formatQ q)) with hnil | ⟨pre, d, hcat⟩
  · exact absurd hnil (formatQ_ne_nil q)
  have hcat2 : formatQ q = pre ++ [d] := by simpa [List.concat_eq_append] using hcat
  obtain ⟨c0, cs, hcons⟩ := List.exists_cons_of_ne_nil (formatQ_ne_nil q)
  have hrv : renderV (.vnum q) = formatQ q := rfl
  simp only [hrv, hcons, List.length_append, List.length_cons] at hf
  obtain ⟨f', rfl⟩ : ∃ f', f = f' + 1 := ⟨f - 1, by omega⟩
  refine ⟨pre, d, by rw [hrv, hcat2], ?_⟩
  rw [hrv, hcons]
  have hin : (c0 :: cs) ++ rest = c0 :: (cs ++ rest) := rfl
  rw [hin]
  have hdisp : (c0.isDigit || c0 = '-') = true := by
    have h2 := formatQ_head_dispatch q
    rw [hcons] at h2
    simpa using h2
  rw [parseVal_dispatch_number (cs ++ rest) f' hdisp]
  rw [parse_number_spec (c0 :: (cs ++ rest)) [] f' (by simp; omega)]
  have htw : (cs ++ rest).takeWhile numClass = cs := by
    refine takeWhile_all_append numClass cs rest (fun c hc => ?_) (takeWhile_numClass_nil h)
    exact formatQ_all_numClass q c (by rw [hcons]; exact List.mem_cons_of_mem c0 hc)
  simp only [List.tail_cons, List.headD_cons, htw]
  have hlenpre : cs.length = pre.length := by
    have : (c0 :: cs).length = (pre ++ [d]).length := by rw [← hcons, ← hcat2]
    simp at this
    omega
  have hdrop : (c0 :: (cs ++ rest)).drop cs.length = d :: rest := by
    have hsplit : c0 :: (cs ++ rest) = pre ++ (d :: rest) := by
      have : (c0 :: cs) ++ rest = (pre ++ [d]) ++ rest := by rw [← hcons, ← hcat2]
      simpa [List.append_assoc] using this
    rw [hsplit, hlenpre, List.drop_left]
  rw [hdrop]
  have hstr : strtodQ ([] ++ c0 :: cs) = q := by
    simpa [← hcons] using hq
  rw [hstr]

/-- The array production consumes the rendered element list and closes on
    the final bracket, appending the elements to the accumulator. -/
theorem parse_array_render :
    ∀ (xs : List Value), (∀ x ∈ xs, PVrender x) →
    ∀ (rv : List Value) (hasE : Bool) (rest : List Char) (f : Nat),
      (xs = [] → hasE = false) →
      3 * (renderItems xs ++ ']' :: rest).length + 4 ≤ f →
      parse_array strOps f (renderItems xs ++ ']' :: rest) rv true hasE
        = .ok (rv ++ xs, ']' :: rest) := by
  intro xs
  induction xs with
  | nil =>
    intro _ rv hasE rest f hE hf
    simp only [List.length_append, List.length_cons] at hf
    obtain ⟨f', rfl⟩ : ∃ f', f = f' + 1 := ⟨f - 1, by omega⟩
    show parse_array strOps (f' + 1) (']' :: rest) rv true hasE = _
    rw [parse_array_close f' rest rv true hasE (by rw [hE rfl]; rfl)]
    simp
  | cons x xs' ih =>
    intro hpv rv hasE rest f hE hf
    obtain ⟨c, tx, hx⟩ := List.exists_cons_of_ne_nil (renderV_ne_nil x)
    have hhf := renderV_head_facts x
    rw [hx] at hhf
    simp only [List.headD_cons] at hhf
    have hws : is_whitespace c = false := hhf.1
    have hcne : c ≠ ']' := hhf.2
    have hpx : PVrender x := hpv x (by simp)
    cases xs' with
    | nil =>
      have hri : renderItems [x] = renderV x := rfl
      rw [hri] at hf ⊢
      simp only [List.length_append, List.length_cons] at hf
      obtain ⟨f', rfl⟩ : ∃ f', f = f' + 1 := ⟨f - 1, by omega⟩
      obtain ⟨pre, d, hpd, hpval⟩ := hpx (']' :: rest) f'
        (by simp only [List.headD_cons]; decide)
        (by simp only [List.length_append, List.length_cons]; omega)
      rw [hx] at hpval
      rw [hx, List.cons_append]
      rw [List.cons_append] at hpval
      rw [parse_array_elem f' c (tx ++ ']' :: rest) rv hasE x d (']' :: rest)
        hws (by simp [hcne]) hpval (by simp)]
      obtain ⟨f'', rfl⟩ : ∃ f'', f' = f'' + 1 := ⟨f' - 1, by omega⟩
      rw [parse_array_close f'' rest (rv ++ [x]) false true (by rfl)]
    | cons y ys =>
      have hri : renderItems (x :: y :: ys) =
          renderV x ++ ',' :: ' ' :: renderItems (y :: ys) := rfl
      rw [hri] at hf ⊢
      simp only [List.length_append, List.length_cons] at hf
      obtain ⟨f', rfl⟩ : ∃ f', f = f' + 1 := ⟨f - 1, by omega⟩
      have hassoc : (renderV x ++ ',' :: ' ' :: renderItems (y :: ys)) ++ ']' :: rest
          = renderV x ++ (',' :: ' ' :: (renderItems (y :: ys) ++ ']' :: rest)) := by
        simp [List.append_assoc]
      rw [hassoc]
      obtain ⟨pre, d, hpd, hpval⟩ := hpx (',' :: ' ' :: (renderItems (y :: ys) ++ ']' :: rest)) f'
        (by simp only [List.headD_cons]; decide)
        (by simp only [List.length_append, List.length_cons]; omega)
      rw [hx] at hpval
      rw [hx, List.cons_append]
      rw [List.cons_append] at hpval
      rw [parse_array_elem f' c
        (tx ++ (',' :: ' ' :: (renderItems (y :: ys) ++ ']' :: rest))) rv hasE x d
        (',' :: ' ' :: (renderItems (y :: ys) ++ ']' :: rest))
        hws (by simp [hcne]) hpval (by simp)]
      obtain ⟨f2, rfl⟩ : ∃ f2, f' = f2 + 1 := ⟨f' - 1, by omega⟩
      rw [parse_array_comma f2 (' ' :: (renderItems (y :: ys) ++ ']' :: rest))
        (rv ++ [x]) true (by simp)]
      obtain ⟨f3, rfl⟩ : ∃ f3, f2 = f3 + 1 := ⟨f2 - 1, by omega⟩
      rw [parse_array_ws f3 ' ' (renderItems (y :: ys) ++ ']' :: rest)
        (rv ++ [x]) true true (by decide) (by simp)]
      rw [ih (fun z hz => hpv z (by simp [hz])) (rv ++ [x]) true rest f3
        (fun hnil => absurd hnil (by simp))
        (by simp only [List.length_append, List.length_cons]; omega)]
      simp

/-- One rendered object entry: optional whitespace, quoted escaped key,
    colon, optional whitespace, rendered value. -/
def objItemText (wsA k wsB : List Char) (v : Value) : List Char :=
  wsA ++ (quoteC :: (escape k ++ (quoteC :: ':' :: (wsB ++ renderV v))))

/-- The remainder of a rendered object body after the first entry: a comma
    before each further entry. -/
def objTailText : List (List Char × List Char × List Char × Value) → List Char
  | [] => []
  | (wsA, k, wsB, v) :: more => (',' :: objItemText wsA k wsB v) ++ objTailText more

/-- A whole rendered object body (no braces): entries joined by commas. -/
def objItemsText : List (List Char × List Char × List Char × Value) → List Char
  | [] => []
  | (wsA, k, wsB, v) :: more => objItemText wsA k wsB v ++ objTailText more

/-- The object production over a single entry followed by text `tl` starting
    with ',' or the closing brace: it inserts the pair into the accumulating
    map and proceeds into `tl` with no pending key, for any continuation
    result `R` the tail produces at the remaining fuel. -/
theorem parse_object_item_step
    (wsA k wsB : List Char) (v : Value) (tl : List Char)
    (rv : List (List Char × Value)) (key0 : List Char) (ge : Bool) (f : Nat)
    (R : Except Err (List (List Char × Value) × List Char))
    (hwsA : ∀ c ∈ wsA, is_whitespace c = true)
    (hwsB : ∀ c ∈ wsB, is_whitespace c = true)
    (hpv : PVrender v)
    (htl : tl.headD nulC = ',' ∨ tl.headD nulC = rbraceC)
    (hcont : ∀ f3 : Nat, 3 * tl.length + 4 ≤ f3 →
      parse_object strOps f3 tl (mapInsert rv k v) k false true = R)
    (hf : 3 * (objItemText wsA k wsB v ++ tl).length + 4 ≤ f) :
    parse_object strOps f (objItemText wsA k wsB v ++ tl) rv key0 false ge = R := by
  have htlne : tl ≠ [] := by
    intro hn
    rw [hn] at htl
    rcases htl with h1 | h1 <;> exact absurd h1 (by decide)
  have hrest : numClass (tl.headD nulC) = false := by
    rcases htl with h1 | h1 <;> rw [h1] <;> decide
  simp only [objItemText, List.cons_append, List.append_assoc, List.length_append,
    List.length_cons] at hf
  simp only [objItemText, List.cons_append, List.append_assoc]
  obtain ⟨f1, rfl⟩ : ∃ f1, f = f1 + wsA.length := ⟨f - wsA.length, by omega⟩
  rw [parse_object_ws_many wsA f1 _ rv key0 false ge hwsA (by simp)]
  obtain ⟨f2, rfl⟩ : ∃ f2, f1 = f2 + 1 := ⟨f1 - 1, by omega⟩
  have hstring : parse_string strOps f2
      (escape k ++ quoteC :: (':' :: (wsB ++ (renderV v ++ tl)))) false []
        = .ok (k, quoteC :: (':' :: (wsB ++ (renderV v ++ tl)))) := by
    have hps := parse_string_escape k [] (':' :: (wsB ++ (renderV v ++ tl))) f2 (by omega)
    simpa using hps
  rw [parse_object_key f2 _ rv key0 ge k quoteC (':' :: (wsB ++ (renderV v ++ tl)))
    hstring (by simp)]
  obtain ⟨f3, rfl⟩ : ∃ f3, f2 = f3 + 1 := ⟨f2 - 1, by omega⟩
  obtain ⟨f4, rfl⟩ : ∃ f4, f3 = f4 + wsB.length := ⟨f3 - wsB.length, by omega⟩
  obtain ⟨pre, d, hpd, hpv2⟩ := hpv tl f4 hrest
    (by simp only [List.length_append]; omega)
  have hrvtl : renderV v ++ tl ≠ [] := by
    intro hn
    rcases List.append_eq_nil.mp hn with ⟨h1, _⟩
    exact renderV_ne_nil v h1
  have hval : parseVal strOps (f4 + wsB.length) (wsB ++ (renderV v ++ tl))
      = .ok (v, d :: tl) := by
    rw [parseVal_ws_many wsB f4 (renderV v ++ tl) hwsB hrvtl]
    exact hpv2
  rw [parse_object_colon (f4 + wsB.length) (wsB ++ (renderV v ++ tl)) rv k ge v d tl
    hval htlne]
  exact hcont (f4 + wsB.length) (by omega)

/-- Folding the parsed entries into the std::map model, in text order. -/
def objFold (rv : List (List Char × Value))
    (items : List (List Char × List Char × List Char × Value)) :
    List (List Char × Value) :=
  items.foldl (fun m it => mapInsert m it.2.1 it.2.2.2) rv

/-- The text after an object entry starts with ',' or the closing brace. -/
theorem objTailText_head (more : List (List Char × List Char × List Char × Value))
    (rest : List Char) :
    (objTailText more ++ rbraceC :: rest).headD nulC = ','
      ∨ (objTailText more ++ rbraceC :: rest).headD nulC = rbraceC := by
  cases more with
  | nil => right; rfl
  | cons it t =>
    obtain ⟨a, b, c, d⟩ := it
    left
    rfl

/-- Hygiene conditions on a rendered entry list: whitespace blocks really
    are whitespace, and each value round-trips. -/
def objItemsOK (items : List (List Char × List Char × List Char × Value)) : Prop :=
  ∀ it ∈ items, (∀ c ∈ it.1, is_whitespace c = true)
    ∧ (∀ c ∈ it.2.2.1, is_whitespace c = true) ∧ PVrender it.2.2.2

/-- The object production with a pending comma-separated entry list: it
    inserts each entry in order and returns on the closing brace. -/
theorem parse_object_tail_render :
    ∀ (items : List (List Char × List Char × List Char × Value)), objItemsOK items →
    ∀ (rv : List (List Char × Value)) (key : List Char) (rest : List Char) (f : Nat),
      3 * (objTailText items ++ rbraceC :: rest).length + 4 ≤ f →
      parse_object strOps f (objTailText items ++ rbraceC :: rest) rv key false true
        = .ok (objFold rv items, rbraceC :: rest) := by
  intro items
  induction items with
  | nil =>
    intro _ rv key rest f hf
    simp only [List.length_append, List.length_cons] at hf
    obtain ⟨f1, rfl⟩ : ∃ f1, f = f1 + 1 := ⟨f - 1, by omega⟩
    show parse_object strOps (f1 + 1) (rbraceC :: rest) rv key false true = _
    rw [parse_object_close f1 rest rv key true]
    rfl
  | cons it more ih =>
    intro hok rv key rest f hf
    obtain ⟨wsA, k, wsB, v⟩ := it
    obtain ⟨hwsA, hwsB, hpv⟩ := hok (wsA, k, wsB, v) (by simp)
    have hsh : objTailText ((wsA, k, wsB, v) :: more)
        = (',' :: objItemText wsA k wsB v) ++ objTailText more := rfl
    rw [hsh] at hf ⊢
    simp only [List.cons_append, List.append_assoc, List.length_append,
      List.length_cons] at hf
    simp only [List.cons_append, List.append_assoc]
    obtain ⟨f1, rfl⟩ : ∃ f1, f = f1 + 1 := ⟨f - 1, by omega⟩
    rw [parse_object_comma f1 _ rv key (by simp)]
    have hres : objFold rv ((wsA, k, wsB, v) :: more)
        = objFold (mapInsert rv k v) more := rfl
    rw [hres]
    refine parse_object_item_step wsA k wsB v (objTailText more ++ rbraceC :: rest)
      rv key true f1 _ hwsA hwsB hpv (objTailText_head more rest)
      (fun f3 hb => ih (fun x hx => hok x (by simp [hx])) (mapInsert rv k v) k rest f3 hb)
      (by simp only [List.cons_append, List.append_assoc,
            List.length_append, List.length_cons]; omega)

/-- The object production on a whole rendered body followed by the closing
    brace: from the initial no-pending-key state it accumulates every entry
    and returns on the brace, regardless of the got-elements flag. -/
theorem parse_object_body_render
    (items : List (List Char × List Char × List Char × Value)) (hok : objItemsOK items)
    (rv : List (List Char × Value)) (key : List Char) (ge : Bool) (rest : List Char)
    (f : Nat)
    (hf : 3 * (objItemsText items ++ rbraceC :: rest).length + 4 ≤ f) :
    parse_object strOps f (objItemsText items ++ rbraceC :: rest) rv key false ge
      = .ok (objFold rv items, rbraceC :: rest) := by
  cases items with
  | nil =>
    simp only [List.length_append, List.length_cons] at hf
    obtain ⟨f1, rfl⟩ : ∃ f1, f = f1 + 1 := ⟨f - 1, by omega⟩
    show parse_object strOps (f1 + 1) (rbraceC :: rest) rv key false ge = _
    rw [parse_object_close f1 rest rv key ge]
    rfl
  | cons it more =>
    obtain ⟨wsA, k, wsB, v⟩ := it
    obtain ⟨hwsA, hwsB, hpv⟩ := hok (wsA, k, wsB, v) (by simp)
    have hsh : objItemsText ((wsA, k, wsB, v) :: more)
        = objItemText wsA k wsB v ++ objTailText more := rfl
    rw [hsh] at hf ⊢
    simp only [List.append_assoc, List.length_append, List.length_cons] at hf
    simp only [List.append_assoc]
    have hres : objFold rv ((wsA, k, wsB, v) :: more)
        = objFold (mapInsert rv k v) more := rfl
    rw [hres]
    refine parse_object_item_step wsA k wsB v (objTailText more ++ rbraceC :: rest)
      rv key ge f _ hwsA hwsB hpv (objTailText_head more rest)
      (fun f3 hb => parse_object_tail_render more
        (fun x hx => hok x (by simp [hx])) (mapInsert rv k v) k rest f3 hb)
      (by simp only [List.cons_append, List.append_assoc,
            List.length_append, List.length_cons]; omega)

/-- The rendered pair list as generic entries: no whitespace before the
    first key, one space after each comma and after each colon. -/
def pairsToItems : List (List Char × Value) →
    List (List Char × List Char × List Char × Value)
  | [] => []
  | (k, v) :: rest =>
    ([], k, [' '], v) :: rest.map (fun kv => ([' '], kv.1, [' '], kv.2))

/-- Rendering the non-first entries matches the generic form with the comma
    and following space made explicit. -/
theorem renderPairs_tail_eq : ∀ (m : List (List Char × Value)), m ≠ [] →
    ',' :: ' ' :: renderPairs m
      = objTailText (m.map fun kv => (([' '] : List Char), kv.1, [' '], kv.2)) := by
  intro m
  induction m with
  | nil => intro h; exact absurd rfl h
  | cons kv t ih =>
    intro _
    obtain ⟨k, v⟩ := kv
    cases t with
    | nil => simp [renderPairs, objTailText, objItemText]
    | cons p r =>
      have h1 : renderPairs ((k, v) :: p :: r)
          = (quoteC :: (escape k ++ quoteC :: ':' :: ' ' :: renderV v))
            ++ ',' :: ' ' :: renderPairs (p :: r) := rfl
      rw [h1, ih (by simp)]
      simp [objTailText, objItemText]

/-- A rendered object body is the generic entry text of its pair list. -/
theorem renderPairs_items_eq : ∀ (m : List (List Char × Value)),
    renderPairs m = objItemsText (pairsToItems m) := by
  intro m
  cases m with
  | nil => rfl
  | cons kv t =>
    obtain ⟨k, v⟩ := kv
    cases t with
    | nil => simp [renderPairs, pairsToItems, objItemsText, objTailText, objItemText]
    | cons p r =>
      have h1 : renderPairs ((k, v) :: p :: r)
          = (quoteC :: (escape k ++ quoteC :: ':' :: ' ' :: renderV v))
            ++ ',' :: ' ' :: renderPairs (p :: r) := rfl
      rw [h1, renderPairs_tail_eq (p :: r) (by simp)]
      simp [pairsToItems, objItemsText, objItemText]

/-- The generic entries built from a pair list satisfy the hygiene
    conditions as soon as every value round-trips. -/
theorem pairsToItems_ok (m : List (List Char × Value))
    (h : ∀ kv ∈ m, PVrender kv.2) : objItemsOK (pairsToItems m) := by
  cases m with
  | nil => intro it hit; simp [pairsToItems] at hit
  | cons kv t =>
    obtain ⟨k, v⟩ := kv
    intro it hit
    rcases List.mem_cons.mp hit with heq | hmem
    · subst heq
      exact ⟨by simp, by intro c hc; simp at hc; subst hc; decide, h (k, v) (by simp)⟩
    · obtain ⟨p, hp, heq⟩ := List.mem_map.mp hmem
      subst heq
      refine ⟨?_, ?_, h p (by simp [hp])⟩
      · intro c hc; simp at hc; subst hc; decide
      · intro c hc; simp at hc; subst hc; decide

/-- Folding the generic entries is folding `std::map` insertion over the
    original pairs. -/
theorem objFold_pairsToItems : ∀ (m : List (List Char × Value))
    (rv : List (List Char × Value)),
    objFold rv (pairsToItems m)
      = m.foldl (fun acc kv => mapInsert acc kv.1 kv.2) rv := by
  intro m rv
  cases m with
  | nil => rfl
  | cons kv t =>
    obtain ⟨k, v⟩ := kv
    show objFold (mapInsert rv k v) (t.map fun kv => ([' '], kv.1, [' '], kv.2))
      = t.foldl (fun acc kv => mapInsert acc kv.1 kv.2) (mapInsert rv k v)
    rw [objFold, List.foldl_map]

/-- Inserting a key larger than everything present appends. -/
theorem mapInsert_append_last : ∀ (rv : List (List Char × Value)) (k : List Char)
    (v : Value), (∀ p ∈ rv, keyLt p.1 k = true) →
    mapInsert rv k v = rv ++ [(k, v)] := by
  intro rv
  induction rv with
  | nil => intro k v _; rfl
  | cons q t ih =>
    intro k v h
    obtain ⟨k', v'⟩ := q
    have h1 : keyLt k' k = true := h (k', v') (by simp)
    have h2 : keyLt k k' = false := by
      cases hkk : keyLt k k' with
      | false => rfl
      | true =>
        have h3 := keyLt_trans k k' k hkk h1
        rw [keyLt_irrefl k] at h3
        exact absurd h3 (by decide)
    rw [mapInsert, if_neg (by simp [h2]), if_pos h1,
      ih k v (fun p hp => h p (by simp [hp]))]
    rfl

/-- In a sorted list, every key in a prefix is below a key that follows. -/
theorem sorted_prefix_all_lt : ∀ (rv : List (List Char × Value)) (k : List Char)
    (v : Value) (t : List (List Char × Value)),
    sortedKeysB (rv ++ (k, v) :: t) = true → ∀ p ∈ rv, keyLt p.1 k = true := by
  intro rv
  induction rv with
  | nil => intro k v t _ p hp; simp at hp
  | cons q r ih =>
    intro k v t h p hp
    rcases List.mem_cons.mp hp with heq | hmem
    · subst heq
      exact sorted_all_gt p (r ++ (k, v) :: t) h (k, v) (by simp)
    · exact ih k v t (sortedKeysB_tail h) p hmem

/-- Folding `std::map` insertion over an already-sorted pair list rebuilds
    exactly that list. -/
theorem foldl_mapInsert_id : ∀ (m rv : List (List Char × Value)),
    sortedKeysB (rv ++ m) = true →
    m.foldl (fun acc kv => mapInsert acc kv.1 kv.2) rv = rv ++ m := by
  intro m
  induction m with
  | nil => intro rv _; simp
  | cons kv t ih =>
    intro rv h
    obtain ⟨k, v⟩ := kv
    have hall : ∀ p ∈ rv, keyLt p.1 k = true := sorted_prefix_all_lt rv k v t h
    have hstep : List.foldl (fun acc kv => mapInsert acc kv.1 kv.2) rv ((k, v) :: t)
        = List.foldl (fun acc kv => mapInsert acc kv.1 kv.2) (mapInsert rv k v) t := rfl
    rw [hstep, mapInsert_append_last rv k v hall,
      ih (rv ++ [(k, v)]) (by simpa [List.append_assoc] using h)]
    simp

/-- The heart of the round trip: parsing the rendering of any well-formed
    value whose numeric leaves are extraction-faithful recovers the value,
    with the cursor resting on the last rendered character. -/
theorem parseVal_render : ∀ (v : Value), WFV v → NumOK v → PVrender v
  | .vnull, _, _ => pv_null
  | .vbool b, _, _ => pv_bool b
  | .vnum q, _, hn => pv_num q (by cases hn with | nnum _ h => exact h)
  | .vstr s, _, _ => pv_str s
  | .varr xs, hw, hn => by
    have hpvxs : ∀ x ∈ xs, PVrender x := by
      intro x hx
      have hwx : WFV x := by cases hw with | warr _ h => exact h x hx
      have hnx : NumOK x := by cases hn with | narr _ h => exact h x hx
      exact parseVal_render x hwx hnx
    intro rest f hrest hf
    have hren : renderV (.varr xs) = '[' :: (renderItems xs ++ [']']) := rfl
    rw [hren] at hf ⊢
    simp only [List.cons_append, List.append_assoc, List.length_append,
      List.length_cons] at hf
    obtain ⟨f', rfl⟩ : ∃ f', f = f' + 1 := ⟨f - 1, by omega⟩
    refine ⟨'[' :: renderItems xs, ']', by simp, ?_⟩
    have hin : ('[' :: (renderItems xs ++ [']'])) ++ rest
        = '[' :: (renderItems xs ++ (']' :: rest)) := by simp
    rw [hin]
    refine parseVal_arr f' _ xs (']' :: rest) ?_
    rw [parse_array_render xs hpvxs [] false rest f' (fun _ => rfl)
      (by simp only [List.length_append, List.length_cons]; omega)]
    simp
  | .vobj m, hw, hn => by
    have hpvm : ∀ kv ∈ m, PVrender kv.2 := by
      intro kv hkv
      have hwkv : WFV kv.2 := by cases hw with | wobj _ _ h => exact h kv hkv
      have hnkv : NumOK kv.2 := by cases hn with | nobj _ h => exact h kv hkv
      exact parseVal_render kv.2 hwkv hnkv
    intro rest f hrest hf
    have hsorted : sortedKeysB m = true := by cases hw with | wobj _ hs _ => exact hs
    have hren : renderV (.vobj m) = lbraceC :: (renderPairs m ++ [rbraceC]) := rfl
    rw [hren] at hf ⊢
    simp only [List.cons_append, List.append_assoc, List.length_append,
      List.length_cons] at hf
    obtain ⟨f', rfl⟩ : ∃ f', f = f' + 1 := ⟨f - 1, by omega⟩
    refine ⟨lbraceC :: renderPairs m, rbraceC, by simp, ?_⟩
    have hin : (lbraceC :: (renderPairs m ++ [rbraceC])) ++ rest
        = lbraceC :: (objItemsText (pairsToItems m) ++ (rbraceC :: rest)) := by
      rw [← renderPairs_items_eq]
      simp
    rw [hin]
    refine parseVal_obj f' _ m (rbraceC :: rest) ?_
    rw [parse_object_body_render (pairsToItems m) (pairsToItems_ok m hpvm) [] [] false
      rest f'
      (by rw [← renderPairs_items_eq]
          simp only [List.length_append, List.length_cons]
          omega)]
    rw [objFold_pairsToItems, foldl_mapInsert_id m [] (by simpa using hsorted)]
    simp
termination_by v _ _ => sizeOf v
decreasing_by
  all_goals simp_wf
  · have h1 := List.sizeOf_lt_of_mem hx
    omega
  · have h1 := List.sizeOf_lt_of_mem hkv
    obtain ⟨a, b⟩ := kv
    simp at h1 ⊢
    omega

/-- The number production only ever produces numeric values. -/
theorem parse_number_wf : ∀ (f : Nat) {σ : Type} (ops : IterOps σ) (cur : σ)
    (acc : List Char) (v : Value) (r : σ),
    parse_number ops f cur acc = .ok (v, r) → ∃ q, v = .vnum q := by
  intro f
  induction f with
  | zero => intro σ ops cur acc v r h; exact absurd h (by rw [parse_number]; simp)
  | succ f ih =>
    intro σ ops cur acc v r h
    rw [parse_number] at h
    dsimp only [] at h
    split at h
    · split at h
      · exact ih ops _ _ v r h
      · exact ⟨_, (by injection h with h1; injection h1 with h2 _; exact h2.symm)⟩
    · exact ⟨_, (by injection h with h1; injection h1 with h2 _; exact h2.symm)⟩

/-- Parser outputs are well-formed: values carry sorted object maps at every
    level (the `std::map` invariant), with the loop accumulators tracked. -/
theorem parsers_wf : ∀ (f : Nat),
    (∀ {σ : Type} (ops : IterOps σ) (cur : σ) (v : Value) (r : σ),
      parseVal ops f cur = .ok (v, r) → WFV v)
    ∧ (∀ {σ : Type} (ops : IterOps σ) (cur : σ) (rv : List Value) (acc he : Bool)
        (xs : List Value) (r : σ), (∀ x ∈ rv, WFV x) →
      parse_array ops f cur rv acc he = .ok (xs, r) → ∀ x ∈ xs, WFV x)
    ∧ (∀ {σ : Type} (ops : IterOps σ) (cur : σ) (rv : List (List Char × Value))
        (key : List Char) (gk ge : Bool) (m : List (List Char × Value)) (r : σ),
      sortedKeysB rv = true → (∀ kv ∈ rv, WFV kv.2) →
      parse_object ops f cur rv key gk ge = .ok (m, r) →
      sortedKeysB m = true ∧ ∀ kv ∈ m, WFV kv.2) := by
  intro f
  induction f with
  | zero =>
    refine ⟨?_, ?_, ?_⟩
    · intro σ ops cur v r h; exact absurd h (by rw [parseVal]; simp)
    · intro σ ops cur rv acc he xs r _ h; exact absurd h (by rw [parse_array]; simp)
    · intro σ ops cur rv key gk ge m r _ _ h
      exact absurd h (by rw [parse_object]; simp)
  | succ f ih =>
    obtain ⟨ihV, ihA, ihO⟩ := ih
    refine ⟨?_, ?_, ?_⟩
    · intro σ ops cur v r h
      rw [parseVal] at h
      dsimp only [] at h
      by_cases h1 : ops.deref cur = quoteC
      · rw [if_pos h1] at h
        split at h
        · injection h with h1
          injection h1 with h2 _
          subst h2
          exact WFV.wstr _
        · exact absurd h (by simp)
      rw [if_neg h1] at h
      by_cases h2 : ops.deref cur = '['
      · rw [if_pos h2] at h
        split at h
        · rename_i xs' r' heq
          injection h with h1
          injection h1 with h2 _
          subst h2
          exact WFV.warr _ (ihA ops _ [] true false _ _ (by simp) heq)
        · exact absurd h (by simp)
      rw [if_neg h2] at h
      by_cases h3 : ops.deref cur = lbraceC
      · rw [if_pos h3] at h
        split at h
        · rename_i m' r' heq
          injection h with h1
          injection h1 with h2 _
          subst h2
          exact WFV.wobj _ (ihO ops _ [] [] false false _ _ rfl (by simp) heq).1
            (ihO ops _ [] [] false false _ _ rfl (by simp) heq).2
        · exact absurd h (by simp)
      rw [if_neg h3] at h
      by_cases h4 : ((ops.deref cur).isDigit || decide (ops.deref cur = '-')) = true
      · rw [if_pos h4] at h
        obtain ⟨q, hq⟩ := parse_number_wf f ops cur [] v r h
        subst hq
        exact WFV.wnum q
      rw [if_neg h4] at h
      by_cases h5 : ops.deref cur = 'n'
      · rw [if_pos h5] at h
        repeat' split at h
        all_goals first
          | (injection h with h1; injection h1 with h2 _; subst h2; exact WFV.wnull)
          | exact Except.noConfusion h
      rw [if_neg h5] at h
      by_cases h6 : ops.deref cur = 't'
      · rw [if_pos h6] at h
        repeat' split at h
        all_goals first
          | (injection h with h1; injection h1 with h2 _; subst h2; exact WFV.wbool true)
          | exact Except.noConfusion h
      rw [if_neg h6] at h
      by_cases h7 : ops.deref cur = 'f'
      · rw [if_pos h7] at h
        repeat' split at h
        all_goals first
          | (injection h with h1; injection h1 with h2 _; subst h2; exact WFV.wbool false)
          | exact Except.noConfusion h
      rw [if_neg h7] at h
      by_cases h8 : is_whitespace (ops.deref cur) = true
      · rw [if_pos h8] at h
        split at h
        · exact ihV ops _ v r h
        · exact absurd h (by simp)
      rw [if_neg h8] at h
      exact absurd h (by simp)
    · intro σ ops cur rv acc he xs r hrv h
      rw [parse_array] at h
      dsimp only [] at h
      split at h
      · split at h
        · exact ihA ops _ rv acc he xs r hrv h
        · exact absurd h (by simp)
      · split at h
        · injection h with h1
          injection h1 with h2 _
          subst h2
          exact hrv
        · split at h
          · split at h
            · exact absurd h (by simp)
            · rename_i v' r' heq
              split at h
              · refine ihA ops _ (rv ++ [v']) false true xs r ?_ h
                intro x hx
                rcases List.mem_append.mp hx with hx | hx
                · exact hrv x hx
                · have hx2 : x = v' := by simpa using hx
                  subst hx2
                  exact ihV ops _ x r' heq
              · exact absurd h (by simp)
          · split at h
            · split at h
              · exact ihA ops _ rv true he xs r hrv h
              · exact absurd h (by simp)
            · exact absurd h (by simp)
    · intro σ ops cur rv key gk ge m r hs hrv h
      rw [parse_object] at h
      dsimp only [] at h
      split at h
      · injection h with h1
        injection h1 with h2 _
        subst h2
        exact ⟨hs, hrv⟩
      · split at h
        · split at h
          · exact ihO ops _ rv key gk ge m r hs hrv h
          · exact absurd h (by simp)
        · split at h
          · split at h
            · exact absurd h (by simp)
            · rename_i s' r' heq
              split at h
              · exact ihO ops _ rv s' true ge m r hs hrv h
              · exact absurd h (by simp)
          · split at h
            · split at h
              · exact absurd h (by simp)
              · rename_i v' r' heq
                split at h
                · refine ihO ops _ (mapInsert rv key v') key false true m r
                    (mapInsert_sorted rv key v' hs) ?_ h
                  intro kv hkv
                  rcases mapInsert_mem rv key v' kv hkv with hkv2 | hkv2
                  · subst hkv2
                    exact ihV ops _ v' r' heq
                  · exact hrv kv hkv2
                · exact absurd h (by simp)
            · split at h
              · split at h
                · exact ihO ops _ rv key gk ge m r hs hrv h
                · exact absurd h (by simp)
              · exact absurd h (by simp)

/-- C1 counterexample: the number 1234567890 parses exactly, but `json()`
    streams doubles at the ostream default precision 6, rendering
    "1.23457e+09"; parsing that rendering yields 1234570000, a different
    value, so the render-parse round trip fails on this well-formed text. -/
theorem c1_precision_counterexample :
    parse ("1234567890") = .ok (.vnum 1234567890)
    ∧ String.mk (renderV (.vnum 1234567890)) = ("1.23457e+09")
    ∧ parse (String.mk (renderV (.vnum 1234567890))) = .ok (.vnum 1234570000)
    ∧ (1234570000 : Rat) ≠ 1234567890 := by
  refine ⟨by rfl, by rfl, by rfl, by decide⟩

/-- C1 (amended): if a parsed value's numeric leaves survive the
    precision-6 render-extract cycle, then parsing the rendering recovers
    the value exactly — object entries come back in the same (sorted)
    order with the same contents. -/
theorem c1_render_roundtrip (t : String) (v : Value)
    (hp : parse t = .ok v) (hn : NumOK v) :
    parse (String.mk (renderV v)) = .ok v := by
  have hw : WFV v := by
    rw [parse] at hp
    split at hp
    · exact Except.noConfusion hp
    · rename_i p heq
      split at hp
      · exact Except.noConfusion hp
      · injection hp with h2
        subst h2
        exact (parsers_wf _).1 strOps _ _ _ heq
  obtain ⟨pre, d, hpd, hpv⟩ := parseVal_render v hw hn []
    (3 * (renderV v).length + 4) (by decide)
    (by simp only [List.append_nil]; omega)
  rw [List.append_nil] at hpv
  rw [parse]
  have hlist : (String.mk (renderV v)).toList = renderV v := rfl
  rw [hlist, hpv]
  rfl

/-- Witness: `[1, true]` parses, its numeric leaf is faithful, and parsing
    the rendering gives the same value back. -/
theorem c1_render_roundtrip_witness :
    parse (String.mk (renderV (.varr [.vnum 1, .vbool true])))
      = .ok (.varr [.vnum 1, .vbool true]) := by
  refine c1_render_roundtrip ("[1, true]") (.varr [.vnum 1, .vbool true]) (by rfl) ?_
  refine NumOK.narr _ ?_
  intro x hx
  rcases List.mem_cons.mp hx with h | h
  · subst h
    exact NumOK.nnum 1 (by rfl)
  · have h2 : x = .vbool true := by simpa using h
    subst h2
    exact NumOK.nbool true

/-- Canonical object text for a pair list: no optional whitespace, values
    rendered, duplicate keys allowed. -/
def mkObjText (pairs : List (List Char × Value)) : List Char :=
  lbraceC :: (objItemsText (pairs.map fun kv => ([], kv.1, [], kv.2)) ++ [rbraceC])

/-- `std::map` insertion keeps the key list sorted through any fold. -/
theorem foldl_mapInsert_sorted : ∀ (ps : List (List Char × Value))
    (acc : List (List Char × Value)), sortedKeysB acc = true →
    sortedKeysB (ps.foldl (fun m kv => mapInsert m kv.1 kv.2) acc) = true := by
  intro ps
  induction ps with
  | nil => intro acc h; exact h
  | cons kv t ih =>
    intro acc h
    exact ih (mapInsert acc kv.1 kv.2) (mapInsert_sorted acc kv.1 kv.2 h)

/-- C10: an object text whose entries end with `(k, v)` — in particular one
    in which `k` already occurred earlier — parses successfully to the
    `std::map` fold of its entries; that map binds `k` to `v`, the value
    parsed last for it, and holds at most one entry per key; concretely,
    parsing an object text with the key "a" twice keeps only the second
    binding. -/
theorem c10_duplicate_last_wins (pairs : List (List Char × Value)) (k : List Char)
    (v : Value)
    (hwf : ∀ kv ∈ pairs, WFV kv.2 ∧ NumOK kv.2) (hv : WFV v ∧ NumOK v) :
    parse (String.mk (mkObjText (pairs ++ [(k, v)])))
      = .ok (.vobj ((pairs ++ [(k, v)]).foldl (fun acc kv => mapInsert acc kv.1 kv.2) []))
    ∧ lookupKey ((pairs ++ [(k, v)]).foldl (fun acc kv => mapInsert acc kv.1 kv.2) []) k
      = some v
    ∧ (∀ k2, countKey
        ((pairs ++ [(k, v)]).foldl (fun acc kv => mapInsert acc kv.1 kv.2) []) k2 ≤ 1)
    ∧ parse ("\x7b\"a\":1,\"a\":2\x7d") = .ok (.vobj [(['a'], .vnum 2)]) := by
  have hpvm : ∀ kv ∈ pairs ++ [(k, v)], PVrender kv.2 := by
    intro kv hkv
    rcases List.mem_append.mp hkv with h1 | h1
    · exact parseVal_render kv.2 (hwf kv h1).1 (hwf kv h1).2
    · have h2 : kv = (k, v) := by simpa using h1
      subst h2
      exact parseVal_render v hv.1 hv.2
  have hok : objItemsOK ((pairs ++ [(k, v)]).map fun kv => ([], kv.1, [], kv.2)) := by
    intro it hit
    obtain ⟨kv, hkv, heq⟩ := List.mem_map.mp hit
    subst heq
    exact ⟨by simp, by simp, hpvm kv hkv⟩
  have hbody := parse_object_body_render
    ((pairs ++ [(k, v)]).map fun kv => ([], kv.1, [], kv.2)) hok [] [] false []
    (3 * (mkObjText (pairs ++ [(k, v)])).length + 3)
    (by simp only [mkObjText, List.length_append, List.length_cons, List.length_nil]
        omega)
  have hpv := parseVal_obj (3 * (mkObjText (pairs ++ [(k, v)])).length + 3)
    (objItemsText ((pairs ++ [(k, v)]).map fun kv => ([], kv.1, [], kv.2)) ++ [rbraceC])
    (objFold [] ((pairs ++ [(k, v)]).map fun kv => ([], kv.1, [], kv.2))) [rbraceC] hbody
  have hfold : objFold [] ((pairs ++ [(k, v)]).map fun kv => ([], kv.1, [], kv.2))
      = (pairs ++ [(k, v)]).foldl (fun acc kv => mapInsert acc kv.1 kv.2) [] := by
    rw [objFold, List.foldl_map]
  refine ⟨?_, ?_, ?_, by rfl⟩
  · rw [parse]
    have hpv2 : parseVal strOps
        (3 * (String.mk (mkObjText (pairs ++ [(k, v)]))).toList.length + 4)
        ((String.mk (mkObjText (pairs ++ [(k, v)]))).toList)
        = .ok (.vobj ((pairs ++ [(k, v)]).foldl
            (fun acc kv => mapInsert acc kv.1 kv.2) []), [rbraceC]) := by
      rw [← hfold]
      exact hpv
    rw [hpv2]
    rfl
  · rw [List.foldl_append]
    exact lookupKey_mapInsert _ k v
  · intro k2
    exact countKey_sorted _ (foldl_mapInsert_sorted (pairs ++ [(k, v)]) [] rfl) k2

/-- Witness: the two-entry list with key "a" twice, values 1 then 2. -/
theorem c10_duplicate_last_wins_witness :
    parse (String.mk (mkObjText ([(['a'], Value.vnum 1)] ++ [(['a'], Value.vnum 2)])))
      = .ok (.vobj (([(['a'], Value.vnum 1)] ++ [(['a'], Value.vnum 2)]).foldl
          (fun acc kv => mapInsert acc kv.1 kv.2) []))
    ∧ lookupKey (([(['a'], Value.vnum 1)] ++ [(['a'], Value.vnum 2)]).foldl
        (fun acc kv => mapInsert acc kv.1 kv.2) []) ['a'] = some (Value.vnum 2)
    ∧ (∀ k2, countKey (([(['a'], Value.vnum 1)] ++ [(['a'], Value.vnum 2)]).foldl
        (fun acc kv => mapInsert acc kv.1 kv.2) []) k2 ≤ 1)
    ∧ parse ("\x7b\"a\":1,\"a\":2\x7d") = .ok (.vobj [(['a'], .vnum 2)]) :=
  c10_duplicate_last_wins [(['a'], Value.vnum 1)] ['a'] (Value.vnum 2)
    (by intro kv hkv
        have h2 : kv = (['a'], Value.vnum 1) := by simpa using hkv
        subst h2
        exact ⟨WFV.wnum 1, NumOK.nnum 1 (by rfl)⟩)
    ⟨WFV.wnum 2, NumOK.nnum 2 (by rfl)⟩

/-! ### C8: the stream iterator simulates the string iterator -/

/-- Correspondence between a string-parser position (remaining suffix) and a
    stream-parser state: either both exhausted (a failed `get` left the
    stream not-good), or the stream has buffered exactly the suffix head
    with the rest unread. -/
def SimR (l : List Char) (st : StreamSt) : Prop :=
  (l = [] ∧ st.good = false) ∨ (∃ c r, l = c :: r ∧ st = ⟨c, r, true⟩)

theorem simR_init (l : List Char) : SimR l (initStream l) := by
  cases l with
  | nil => exact Or.inl ⟨rfl, rfl⟩
  | cons c r => exact Or.inr ⟨c, r, rfl, rfl⟩

theorem simR_hasMore {l : List Char} {st : StreamSt} (h : SimR l st) :
    strOps.hasMore l = streamOps.hasMore st := by
  rcases h with ⟨hl, hg⟩ | ⟨c, r, hl, hst⟩
  · subst hl
    have h2 : streamOps.hasMore st = st.good := rfl
    rw [h2, hg]
    rfl
  · subst hl
    subst hst
    rfl

theorem simR_deref {l : List Char} {st : StreamSt} {c : Char} {r : List Char}
    (h : SimR l st) (hl : l = c :: r) : st = ⟨c, r, true⟩ := by
  rcases h with ⟨hnil, _⟩ | ⟨c', r', hl2, hst⟩
  · rw [hl] at hnil
    exact absurd hnil (by simp)
  · rw [hl] at hl2
    injection hl2 with h1 h2
    subst h1
    subst h2
    exact hst

theorem simR_tail (c : Char) (r : List Char) :
    SimR r (streamOps.next ⟨c, r, true⟩) := by
  cases r with
  | nil => exact Or.inl ⟨rfl, rfl⟩
  | cons c' r' => exact Or.inr ⟨c', r', rfl, rfl⟩

theorem streamOps_deref (c : Char) (r : List Char) (g : Bool) :
    streamOps.deref ⟨c, r, g⟩ = c := rfl

theorem streamOps_hasMore (c : Char) (r : List Char) (g : Bool) :
    streamOps.hasMore ⟨c, r, g⟩ = g := rfl

theorem strOps_peek1 (c : Char) (r : List Char) :
    strOps.peek1 (c :: r) = r.headD nulC := rfl

theorem streamOps_peek1 (c : Char) (r : List Char) :
    streamOps.peek1 ⟨c, r, true⟩ = r.headD eofC := rfl

/-- The class test on the peeked character agrees: at the end the string
    parser peeks the NUL terminator and the stream parser peeks eof, and
    neither is in the numeric class. -/
theorem simR_peek_numClass (c : Char) (r : List Char) :
    numClass (strOps.peek1 (c :: r)) = numClass (streamOps.peek1 ⟨c, r, true⟩) := by
  cases r with
  | nil => exact (by decide : numClass nulC = numClass eofC)
  | cons c' r' => rfl

/-- Tail-garbage check: the stream run mirrors the string run. -/
theorem runTrail_sim : ∀ (f : Nat) (l : List Char) (st : StreamSt), SimR l st →
    runTrail strOps f l = .ok () → runTrail streamOps f st = .ok () := by
  intro f
  induction f with
  | zero => intro l st _ h; exact absurd h (by rw [runTrail]; simp)
  | succ f ih =>
    intro l st hsim h
    rw [runTrail] at h
    try dsimp only [] at h
    rw [runTrail]
    try dsimp only []
    rcases hsim with ⟨hl, hg⟩ | ⟨c, r, hl, hst⟩
    · subst hl
      have hnil : streamOps.next st = st := by
        show streamNext st = st
        rw [streamNext, if_neg (by rw [hg]; simp)]
      rw [hnil]
      have hgm : streamOps.hasMore st = false := hg
      rw [hgm]
      exact h
    · subst hl
      subst hst
      cases r with
      | nil =>
        rw [show streamOps.next ⟨c, [], true⟩ = ⟨c, [], false⟩ from rfl]
        rw [streamOps_hasMore]
        rw [if_neg (by simp)]
      | cons c' r' =>
        rw [show streamOps.next ⟨c, c' :: r', true⟩ = ⟨c', r', true⟩ from rfl]
        have h1 : strOps.hasMore (strOps.next (c :: c' :: r')) = true := rfl
        rw [if_pos h1] at h
        have h2 : streamOps.hasMore (⟨c', r', true⟩ : StreamSt) = true := rfl
        rw [if_pos h2]
        rw [show strOps.deref (strOps.next (c :: c' :: r')) = c' from rfl] at h
        rw [streamOps_deref]
        split at h
        · rename_i hws
          rw [if_pos hws]
          exact ih (c' :: r') ⟨c', r', true⟩ (Or.inr ⟨c', r', rfl, rfl⟩) h
        · exact absurd h (by simp)

/-- String production: the stream run mirrors the string run and lands in
    the corresponding state. -/
theorem parse_string_sim : ∀ (f : Nat) (l : List Char) (st : StreamSt) (esc : Bool)
    (acc s r : List Char), SimR l st →
    parse_string strOps f l esc acc = .ok (s, r) →
    ∃ st2, parse_string streamOps f st esc acc = .ok (s, st2) ∧ SimR r st2 := by
  intro f
  induction f with
  | zero => intro l st esc acc s r _ h; exact absurd h (by rw [parse_string]; simp)
  | succ f ih =>
    intro l st esc acc s r hsim h
    rw [parse_string] at h
    try dsimp only [] at h
    split at h
    case isTrue hm =>
      cases l with
      | nil => exact absurd hm (by decide)
      | cons c r' =>
        have hst := simR_deref hsim rfl
        subst hst
        rw [strOps_deref_cons] at h
        rw [parse_string]
        try dsimp only []
        rw [if_pos (show streamOps.hasMore (⟨c, r', true⟩ : StreamSt) = true from rfl)]
        rw [streamOps_deref]
        split at h
        case isTrue hq =>
          rw [if_pos hq]
          injection h with h1
          injection h1 with h2 h3
          subst h2
          subst h3
          exact ⟨⟨c, r', true⟩, rfl, Or.inr ⟨c, r', rfl, rfl⟩⟩
        case isFalse hq =>
          rw [if_neg hq]
          obtain ⟨st2, hps, hsim2⟩ := ih _ _ _ _ _ _ (simR_tail c r') h
          exact ⟨st2, hps, hsim2⟩
    case isFalse hm => exact absurd h (by simp)

/-- Number production: entered only with a character in hand; the stream run
    mirrors the string run (at the very end the two peeks differ — NUL
    versus eof — but neither continues the number). -/
theorem parse_number_sim : ∀ (f : Nat) (l : List Char) (st : StreamSt)
    (acc : List Char) (v : Value) (r : List Char), SimR l st → l ≠ [] →
    parse_number strOps f l acc = .ok (v, r) →
    ∃ st2, parse_number streamOps f st acc = .ok (v, st2) ∧ SimR r st2 := by
  intro f
  induction f with
  | zero => intro l st acc v r _ _ h; exact absurd h (by rw [parse_number]; simp)
  | succ f ih =>
    intro l st acc v r hsim hne h
    cases l with
    | nil => exact absurd rfl hne
    | cons c r' =>
      have hst := simR_deref hsim rfl
      subst hst
      rw [parse_number] at h
      try dsimp only [] at h
      rw [strOps_deref_cons] at h
      rw [parse_number]
      try dsimp only []
      rw [streamOps_deref, streamOps_peek1]
      have hpk : numClass (strOps.peek1 (c :: r')) = numClass (r'.headD eofC) := by
        cases r' with
        | nil => exact (by decide : numClass nulC = numClass eofC)
        | cons c2 r2 => rfl
      rw [← hpk]
      split at h
      case isTrue hcl =>
        rw [if_pos hcl]
        cases r' with
        | nil =>
          rw [if_neg (show ¬(strOps.hasMore (strOps.next (c :: [])) = true) from
            by intro hab; exact Bool.noConfusion hab)] at h
          rw [if_neg (show ¬(streamOps.hasMore (streamOps.next
            (⟨c, [], true⟩ : StreamSt)) = true) from
            by intro hab; exact Bool.noConfusion hab)]
          injection h with h1
          injection h1 with h2 h3
          subst h2
          subst h3
          exact ⟨streamOps.next ⟨c, [], true⟩, rfl, Or.inl ⟨rfl, rfl⟩⟩
        | cons c2 r2 =>
          rw [if_pos (show strOps.hasMore (strOps.next (c :: c2 :: r2)) = true from
            rfl)] at h
          rw [if_pos (show streamOps.hasMore (streamOps.next
            (⟨c, c2 :: r2, true⟩ : StreamSt)) = true from rfl)]
          obtain ⟨st2, hps, hsim2⟩ := ih _ _ _ _ _ (simR_tail c (c2 :: r2))
            (by simp) h
          exact ⟨st2, hps, hsim2⟩
      case isFalse hcl =>
        rw [if_neg hcl]
        injection h with h1
        injection h1 with h2 h3
        subst h2
        subst h3
        exact ⟨⟨c, r', true⟩, rfl, Or.inr ⟨c, r', rfl, rfl⟩⟩

/-- At the end of a string, `*cur` reads the NUL terminator, which no value
    production accepts. -/
theorem parseVal_nil_error : ∀ (f : Nat), ∃ e, parseVal strOps f [] = .error e := by
  intro f
  cases f with
  | zero => exact ⟨.outOfFuel, rfl⟩
  | succ f => exact ⟨.msg ("bad json"), rfl⟩

theorem parse_string_nil_error : ∀ (f : Nat) (esc : Bool) (acc : List Char),
    ∃ e, parse_string strOps f [] esc acc = .error e := by
  intro f esc acc
  cases f with
  | zero => exact ⟨.outOfFuel, rfl⟩
  | succ f => exact ⟨.msg (("bad string: ") ++ String.mk acc), rfl⟩

theorem parse_array_nil_error : ∀ (f : Nat) (rv : List Value) (a he : Bool),
    ∃ e, parse_array strOps (f + 1) [] rv a he = .error e := by
  intro f rv a he
  rw [parse_array]
  try dsimp only []
  rw [if_neg (show ¬(is_whitespace (strOps.deref ([] : List Char)) = true) from
    by intro hab; exact absurd hab (by decide))]
  rw [if_neg (show ¬((decide (strOps.deref ([] : List Char) = ']') && (he != a)) = true)
    from by simp [show decide (strOps.deref ([] : List Char) = ']') = false from
      by decide])]
  cases a with
  | true =>
    rw [if_pos rfl]
    obtain ⟨e0, he0⟩ := parseVal_nil_error f
    rw [he0]
    exact ⟨e0, rfl⟩
  | false =>
    rw [if_neg (by simp)]
    rw [if_neg (show ¬(strOps.deref ([] : List Char) = ',') from by decide)]
    exact ⟨.msg ("bad array"), rfl⟩

theorem parse_object_nil_error : ∀ (f : Nat) (rv : List (List Char × Value))
    (key : List Char) (gk ge : Bool),
    ∃ e, parse_object strOps (f + 1) [] rv key gk ge = .error e := by
  intro f rv key gk ge
  rw [parse_object]
  try dsimp only []
  rw [if_neg (show ¬((decide (strOps.deref ([] : List Char) = rbraceC) && !gk) = true)
    from by simp [show decide (strOps.deref ([] : List Char) = rbraceC) = false from
      by decide])]
  rw [if_neg (show ¬(is_whitespace (strOps.deref ([] : List Char)) = true) from
    by intro hab; exact absurd hab (by decide))]
  rw [if_neg (show ¬(strOps.deref ([] : List Char) = quoteC) from by decide)]
  rw [if_neg (show ¬((gk && decide (strOps.deref ([] : List Char) = ':')) = true) from
    by simp [show decide (strOps.deref ([] : List Char) = ':') = false from by decide])]
  rw [if_neg (show ¬((ge && !gk && decide (strOps.deref ([] : List Char) = ',')) = true)
    from by simp [show decide (strOps.deref ([] : List Char) = ',') = false from
      by decide])]
  exact ⟨.msg ("bad object"), rfl⟩

/-- Advancing both sides preserves the correspondence (a failed stream stays
    failed, matching the exhausted suffix). -/
theorem simR_next {l : List Char} {st : StreamSt} (h : SimR l st) :
    SimR l.tail (streamOps.next st) := by
  rcases h with ⟨hl, hg⟩ | ⟨c, r, hl, hst⟩
  · subst hl
    have h2 : streamOps.next st = st := by
      show streamNext st = st
      rw [streamNext, if_neg (by rw [hg]; simp)]
    rw [h2]
    exact Or.inl ⟨rfl, hg⟩
  · subst hl
    subst hst
    exact simR_tail c r

/-- The three mutually recursive productions simulate: whenever the string
    run succeeds, the stream run at the same fuel succeeds with the same
    value and a corresponding final state. -/
theorem parsers_sim : ∀ (f : Nat),
    (∀ (l : List Char) (st : StreamSt) (v : Value) (r : List Char), SimR l st →
      parseVal strOps f l = .ok (v, r) →
      ∃ st2, parseVal streamOps f st = .ok (v, st2) ∧ SimR r st2)
    ∧ (∀ (l : List Char) (st : StreamSt) (rv : List Value) (a he : Bool)
        (xs : List Value) (r : List Char), SimR l st →
      parse_array strOps f l rv a he = .ok (xs, r) →
      ∃ st2, parse_array streamOps f st rv a he = .ok (xs, st2) ∧ SimR r st2)
    ∧ (∀ (l : List Char) (st : StreamSt) (rv : List (List Char × Value))
        (key : List Char) (gk ge : Bool) (m : List (List Char × Value))
        (r : List Char), SimR l st →
      parse_object strOps f l rv key gk ge = .ok (m, r) →
      ∃ st2, parse_object streamOps f st rv key gk ge = .ok (m, st2) ∧ SimR r st2) := by
  intro f
  induction f with
  | zero =>
    refine ⟨?_, ?_, ?_⟩
    · intro l st v r _ h; exact absurd h (by rw [parseVal]; simp)
    · intro l st rv a he xs r _ h; exact absurd h (by rw [parse_array]; simp)
    · intro l st rv key gk ge m r _ h; exact absurd h (by rw [parse_object]; simp)
  | succ f ih =>
    obtain ⟨ihV, ihA, ihO⟩ := ih
    refine ⟨?_, ?_, ?_⟩
    · intro l st v r hsim h
      cases l with
      | nil =>
        obtain ⟨e0, he0⟩ := parseVal_nil_error (f + 1)
        rw [he0] at h
        exact Except.noConfusion h
      | cons c r' =>
        have hst := simR_deref hsim rfl
        subst hst
        rw [parseVal] at h
        try dsimp only [] at h
        rw [strOps_deref_cons] at h
        by_cases h1 : c = quoteC
        · rw [if_pos h1] at h
          split at h
          · rename_i s' r2 heq
            injection h with hp
            injection hp with hp1 hp2
            subst hp1
            subst hp2
            obtain ⟨st2, hps, hsim2⟩ := parse_string_sim f _ _ false [] s' r2
              (simR_tail c r') heq
            refine ⟨st2, ?_, hsim2⟩
            rw [parseVal]
            try dsimp only []
            rw [streamOps_deref, if_pos h1, hps]
          · exact Except.noConfusion h
        rw [if_neg h1] at h
        by_cases h2 : c = '['
        · rw [if_pos h2] at h
          split at h
          · rename_i xs' r2 heq
            injection h with hp
            injection hp with hp1 hp2
            subst hp1
            subst hp2
            obtain ⟨st2, hps, hsim2⟩ := ihA _ _ [] true false xs' r2
              (simR_tail c r') heq
            refine ⟨st2, ?_, hsim2⟩
            rw [parseVal]
            try dsimp only []
            rw [streamOps_deref, if_neg h1, if_pos h2, hps]
          · exact Except.noConfusion h
        rw [if_neg h2] at h
        by_cases h3 : c = lbraceC
        · rw [if_pos h3] at h
          split at h
          · rename_i m' r2 heq
            injection h with hp
            injection hp with hp1 hp2
            subst hp1
            subst hp2
            obtain ⟨st2, hps, hsim2⟩ := ihO _ _ [] [] false false m' r2
              (simR_tail c r') heq
            refine ⟨st2, ?_, hsim2⟩
            rw [parseVal]
            try dsimp only []
            rw [streamOps_deref, if_neg h1, if_neg h2, if_pos h3, hps]
          · exact Except.noConfusion h
        rw [if_neg h3] at h
        by_cases h4 : (c.isDigit || decide (c = '-')) = true
        · rw [if_pos h4] at h
          obtain ⟨st2, hps, hsim2⟩ := parse_number_sim f (c :: r') ⟨c, r', true⟩ [] v r
            (Or.inr ⟨c, r', rfl, rfl⟩) (by simp) h
          refine ⟨st2, ?_, hsim2⟩
          rw [parseVal]
          try dsimp only []
          rw [streamOps_deref, if_neg h1, if_neg h2, if_neg h3, if_pos h4]
          exact hps
        rw [if_neg h4] at h
        by_cases h5 : c = 'n'
        · rw [if_pos h5] at h
          subst h5
          split at h
          · rename_i hu
            cases r' with
            | nil => exact absurd (show nulC = 'u' from hu) (by decide)
            | cons c2 r2 =>
              have hc2 : c2 = 'u' := hu
              subst hc2
              split at h
              · rename_i hl1
                cases r2 with
                | nil => exact absurd (show nulC = 'l' from hl1) (by decide)
                | cons c3 r3 =>
                  have hc3 : c3 = 'l' := hl1
                  subst hc3
                  split at h
                  · rename_i hl2
                    cases r3 with
                    | nil => exact absurd (show nulC = 'l' from hl2) (by decide)
                    | cons c4 r4 =>
                      have hc4 : c4 = 'l' := hl2
                      subst hc4
                      injection h with hp
                      injection hp with hp1 hp2
                      subst hp1
                      subst hp2
                      exact ⟨⟨'l', r4, true⟩, rfl, Or.inr ⟨'l', r4, rfl, rfl⟩⟩
                  · exact Except.noConfusion h
              · exact Except.noConfusion h
          · exact Except.noConfusion h
        rw [if_neg h5] at h
        by_cases h6 : c = 't'
        · rw [if_pos h6] at h
          subst h6
          split at h
          · rename_i hu
            cases r' with
            | nil => exact absurd (show nulC = 'r' from hu) (by decide)
            | cons c2 r2 =>
              have hc2 : c2 = 'r' := hu
              subst hc2
              split at h
              · rename_i hl1
                cases r2 with
                | nil => exact absurd (show nulC = 'u' from hl1) (by decide)
                | cons c3 r3 =>
                  have hc3 : c3 = 'u' := hl1
                  subst hc3
                  split at h
                  · rename_i hl2
                    cases r3 with
                    | nil => exact absurd (show nulC = 'e' from hl2) (by decide)
                    | cons c4 r4 =>
                      have hc4 : c4 = 'e' := hl2
                      subst hc4
                      injection h with hp
                      injection hp with hp1 hp2
                      subst hp1
                      subst hp2
                      exact ⟨⟨'e', r4, true⟩, rfl, Or.inr ⟨'e', r4, rfl, rfl⟩⟩
                  · exact Except.noConfusion h
              · exact Except.noConfusion h
          · exact Except.noConfusion h
        rw [if_neg h6] at h
        by_cases h7 : c = 'f'
        · rw [if_pos h7] at h
          subst h7
          split at h
          · rename_i hu
            cases r' with
            | nil => exact absurd (show nulC = 'a' from hu) (by decide)
            | cons c2 r2 =>
              have hc2 : c2 = 'a' := hu
              subst hc2
              split at h
              · rename_i hl1
                cases r2 with
                | nil => exact absurd (show nulC = 'l' from hl1) (by decide)
                | cons c3 r3 =>
                  have hc3 : c3 = 'l' := hl1
                  subst hc3
                  split at h
                  · rename_i hl2
                    cases r3 with
                    | nil => exact absurd (show nulC = 's' from hl2) (by decide)
                    | cons c4 r4 =>
                      have hc4 : c4 = 's' := hl2
                      subst hc4
                      split at h
                      · rename_i hl3
                        cases r4 with
                        | nil => exact absurd (show nulC = 'e' from hl3) (by decide)
                        | cons c5 r5 =>
                          have hc5 : c5 = 'e' := hl3
                          subst hc5
                          injection h with hp
                          injection hp with hp1 hp2
                          subst hp1
                          subst hp2
                          exact ⟨⟨'e', r5, true⟩, rfl, Or.inr ⟨'e', r5, rfl, rfl⟩⟩
                      · exact Except.noConfusion h
                  · exact Except.noConfusion h
              · exact Except.noConfusion h
          · exact Except.noConfusion h
        rw [if_neg h7] at h
        by_cases h8 : is_whitespace c = true
        · rw [if_pos h8] at h
          cases r' with
          | nil =>
            rw [if_neg (show ¬(strOps.hasMore (strOps.next (c :: ([] : List Char)))
              = true) from fun hab => Bool.noConfusion hab)] at h
            exact Except.noConfusion h
          | cons c2 r2 =>
            rw [if_pos (show strOps.hasMore (strOps.next (c :: c2 :: r2)) = true
              from rfl)] at h
            obtain ⟨st2, hps, hsim2⟩ := ihV _ _ v r (simR_tail c (c2 :: r2)) h
            refine ⟨st2, ?_, hsim2⟩
            rw [parseVal]
            try dsimp only []
            rw [streamOps_deref, if_neg h1, if_neg h2, if_neg h3, if_neg h4,
              if_neg h5, if_neg h6, if_neg h7, if_pos h8]
            rw [if_pos (show streamOps.hasMore (streamOps.next
              (⟨c, c2 :: r2, true⟩ : StreamSt)) = true from rfl)]
            exact hps
        rw [if_neg h8] at h
        exact Except.noConfusion h
    · intro l st rv a he xs r hsim h
      cases l with
      | nil =>
        obtain ⟨e0, he0⟩ := parse_array_nil_error f rv a he
        rw [he0] at h
        exact Except.noConfusion h
      | cons c r' =>
        have hst := simR_deref hsim rfl
        subst hst
        rw [parse_array] at h
        try dsimp only [] at h
        rw [strOps_deref_cons] at h
        split at h
        · rename_i hws
          cases r' with
          | nil =>
            rw [if_neg (show ¬(strOps.hasMore (strOps.next (c :: ([] : List Char)))
              = true) from fun hab => Bool.noConfusion hab)] at h
            exact Except.noConfusion h
          | cons c2 r2 =>
            rw [if_pos (show strOps.hasMore (strOps.next (c :: c2 :: r2)) = true
              from rfl)] at h
            obtain ⟨st2, hps, hsim2⟩ := ihA _ _ rv a he xs r (simR_tail c (c2 :: r2)) h
            refine ⟨st2, ?_, hsim2⟩
            rw [parse_array]
            try dsimp only []
            rw [streamOps_deref, if_pos hws]
            rw [if_pos (show streamOps.hasMore (streamOps.next
              (⟨c, c2 :: r2, true⟩ : StreamSt)) = true from rfl)]
            exact hps
        · split at h
          · rename_i hws hcl
            injection h with hp
            injection hp with hp1 hp2
            subst hp1
            subst hp2
            refine ⟨⟨c, r', true⟩, ?_, Or.inr ⟨c, r', rfl, rfl⟩⟩
            rw [parse_array]
            try dsimp only []
            rw [streamOps_deref, if_neg hws, if_pos hcl]
          · split at h
            · rename_i hws hcl hacc
              split at h
              · exact Except.noConfusion h
              · rename_i v' r2 heq
                obtain ⟨st2, hpsV, hsim2⟩ := ihV (c :: r') ⟨c, r', true⟩ v' r2
                  (Or.inr ⟨c, r', rfl, rfl⟩) heq
                split at h
                · rename_i hm2
                  obtain ⟨st3, hps3, hsim3⟩ := ihA (strOps.next r2)
                    (streamOps.next st2) (rv ++ [v']) false true xs r
                    (simR_next hsim2) h
                  refine ⟨st3, ?_, hsim3⟩
                  rw [parse_array]
                  try dsimp only []
                  rw [streamOps_deref, if_neg hws, if_neg hcl, if_pos hacc, hpsV]
                  try dsimp only []
                  rw [if_pos (show streamOps.hasMore (streamOps.next st2) = true
                    from by rw [← simR_hasMore (simR_next hsim2)]; exact hm2)]
                  exact hps3
                · exact Except.noConfusion h
            · split at h
              · rename_i hws hcl hacc hcm
                cases r' with
                | nil =>
                  rw [if_neg (show ¬(strOps.hasMore (strOps.next
                    (c :: ([] : List Char))) = true) from
                    fun hab => Bool.noConfusion hab)] at h
                  exact Except.noConfusion h
                | cons c2 r2 =>
                  rw [if_pos (show strOps.hasMore (strOps.next (c :: c2 :: r2)) = true
                    from rfl)] at h
                  obtain ⟨st2, hps, hsim2⟩ := ihA _ _ rv true he xs r
                    (simR_tail c (c2 :: r2)) h
                  refine ⟨st2, ?_, hsim2⟩
                  rw [parse_array]
                  try dsimp only []
                  rw [streamOps_deref, if_neg hws, if_neg hcl, if_neg hacc, if_pos hcm]
                  rw [if_pos (show streamOps.hasMore (streamOps.next
                    (⟨c, c2 :: r2, true⟩ : StreamSt)) = true from rfl)]
                  exact hps
              · exact Except.noConfusion h
    · intro l st rv key gk ge m r hsim h
      cases l with
      | nil =>
        obtain ⟨e0, he0⟩ := parse_object_nil_error f rv key gk ge
        rw [he0] at h
        exact Except.noConfusion h
      | cons c r' =>
        have hst := simR_deref hsim rfl
        subst hst
        rw [parse_object] at h
        try dsimp only [] at h
        rw [strOps_deref_cons] at h
        split at h
        · rename_i hcl
          injection h with hp
          injection hp with hp1 hp2
          subst hp1
          subst hp2
          refine ⟨⟨c, r', true⟩, ?_, Or.inr ⟨c, r', rfl, rfl⟩⟩
          rw [parse_object]
          try dsimp only []
          rw [streamOps_deref, if_pos hcl]
        · split at h
          · rename_i hcl hws
            cases r' with
            | nil =>
              rw [if_neg (show ¬(strOps.hasMore (strOps.next (c :: ([] : List Char)))
                = true) from fun hab => Bool.noConfusion hab)] at h
              exact Except.noConfusion h
            | cons c2 r2 =>
              rw [if_pos (show strOps.hasMore (strOps.next (c :: c2 :: r2)) = true
                from rfl)] at h
              obtain ⟨st2, hps, hsim2⟩ := ihO _ _ rv key gk ge m r
                (simR_tail c (c2 :: r2)) h
              refine ⟨st2, ?_, hsim2⟩
              rw [parse_object]
              try dsimp only []
              rw [streamOps_deref, if_neg hcl, if_pos hws]
              rw [if_pos (show streamOps.hasMore (streamOps.next
                (⟨c, c2 :: r2, true⟩ : StreamSt)) = true from rfl)]
              exact hps
          · split at h
            · rename_i hcl hws hq
              split at h
              · exact Except.noConfusion h
              · rename_i k' r2 heq
                obtain ⟨st2, hpsS, hsim2⟩ := parse_string_sim f _ _ false [] k' r2
                  (simR_tail c r') heq
                split at h
                · rename_i hm2
                  obtain ⟨st3, hps3, hsim3⟩ := ihO (strOps.next r2)
                    (streamOps.next st2) rv k' true ge m r (simR_next hsim2) h
                  refine ⟨st3, ?_, hsim3⟩
                  rw [parse_object]
                  try dsimp only []
                  rw [streamOps_deref, if_neg hcl, if_neg hws, if_pos hq, hpsS]
                  try dsimp only []
                  rw [if_pos (show streamOps.hasMore (streamOps.next st2) = true
                    from by rw [← simR_hasMore (simR_next hsim2)]; exact hm2)]
                  exact hps3
                · exact Except.noConfusion h
            · split at h
              · rename_i hcl hws hq hco
                split at h
                · exact Except.noConfusion h
                · rename_i v' r2 heq
                  obtain ⟨st2, hpsV, hsim2⟩ := ihV (strOps.next (c :: r'))
                    (streamOps.next ⟨c, r', true⟩) v' r2 (simR_tail c r') heq
                  split at h
                  · rename_i hm2
                    obtain ⟨st3, hps3, hsim3⟩ := ihO (strOps.next r2)
                      (streamOps.next st2) (mapInsert rv key v') key false true m r
                      (simR_next hsim2) h
                    refine ⟨st3, ?_, hsim3⟩
                    rw [parse_object]
                    try dsimp only []
                    rw [streamOps_deref, if_neg hcl, if_neg hws, if_neg hq,
                      if_pos hco, hpsV]
                    try dsimp only []
                    rw [if_pos (show streamOps.hasMore (streamOps.next st2) = true
                      from by rw [← simR_hasMore (simR_next hsim2)]; exact hm2)]
                    exact hps3
                  · exact Except.noConfusion h
              · split at h
                · rename_i hcl hws hq hco hcm
                  cases r' with
                  | nil =>
                    rw [if_neg (show ¬(strOps.hasMore (strOps.next
                      (c :: ([] : List Char))) = true) from
                      fun hab => Bool.noConfusion hab)] at h
                    exact Except.noConfusion h
                  | cons c2 r2 =>
                    rw [if_pos (show strOps.hasMore (strOps.next (c :: c2 :: r2))
                      = true from rfl)] at h
                    obtain ⟨st2, hps, hsim2⟩ := ihO _ _ rv key gk ge m r
                      (simR_tail c (c2 :: r2)) h
                    refine ⟨st2, ?_, hsim2⟩
                    rw [parse_object]
                    try dsimp only []
                    rw [streamOps_deref, if_neg hcl, if_neg hws, if_neg hq,
                      if_neg hco, if_pos hcm]
                    rw [if_pos (show streamOps.hasMore (streamOps.next
                      (⟨c, c2 :: r2, true⟩ : StreamSt)) = true from rfl)]
                    exact hps
                · exact Except.noConfusion h

/-- C8: parsing via the character-stream entry point — one character pulled
    at a time from a source reporting "has more data" (good()) and "current
    character" (the buffered get) — produces the same Value as the string
    entry point on every input the string form parses successfully. -/
theorem c8_stream_matches_string (s : String) (v : Value)
    (h : parse s = .ok v) : parseStream s = .ok v := by
  rw [parse] at h
  split at h
  · exact Except.noConfusion h
  · rename_i v' cur heq
    split at h
    · exact Except.noConfusion h
    · rename_i u heq2
      injection h with hp
      subst hp
      obtain ⟨st2, hps, hsim2⟩ := (parsers_sim (3 * s.toList.length + 4)).1
        s.toList (initStream s.toList) v' cur (simR_init s.toList) heq
      have htr : runTrail streamOps (3 * s.toList.length + 4) st2 = .ok () :=
        runTrail_sim (3 * s.toList.length + 4) cur st2 hsim2 heq2
      rw [parseStream, hps]
      try dsimp only []
      rw [htr]

/-- Witness: the stream entry point agrees with the string entry point on
    the text `[1, true]`. -/
theorem c8_stream_matches_string_witness :
    parseStream ("[1, true]") = .ok (.varr [.vnum 1, .vbool true]) :=
  c8_stream_matches_string ("[1, true]") (.varr [.vnum 1, .vbool true]) (by rfl)
